import Mathlib

/-!
Verification development for the `wgsl-bindgen` preprocessor and reflection
passes (`src/wgsl_bindgen`).  The Rust code is shallowly embedded: text is
modelled as `List Char` (one Rust `String` line, or a whole source text),
`HashMap` tables as association lists, and the stateful preprocessing loop of
`preprocess_resolve_ifdefs_implementation` as explicit state passing.  Rust
panics (`panic!`) are modelled with `Except`.  All definitions are executable
so that concrete runs can be settled by `decide` / `rfl`.
-/

namespace WgslBindgen

/-- A piece of text, one Unicode scalar per entry (Rust `String` / `&str`). -/
abbrev Chars := List Char

/-- String literal to `Chars`. -/
def lit (s : String) : Chars := s.toList

/-- Whitespace test used by Rust `char::is_whitespace` (ASCII fragment;
the sources only ever contain ASCII whitespace). -/
def isWs (c : Char) : Bool := c.isWhitespace

/-- Rust `str::trim_start`. -/
def trimLeft : Chars → Chars
  | [] => []
  | c :: cs => if isWs c then trimLeft cs else c :: cs

/-- Rust `str::trim_end`. -/
def trimRight (l : Chars) : Chars := (trimLeft l.reverse).reverse

/-- Rust `str::trim`. -/
def trim (l : Chars) : Chars := trimRight (trimLeft l)

/-- Rust `str::starts_with(c)` for a single character. -/
def startsWithCh (c : Char) (l : Chars) : Bool :=
  match l with
  | [] => false
  | x :: _ => x = c

/-- Rust `str::split_once(sep)` for a `char` separator: text before the first
occurrence and text after it, or `none` when the separator is absent. -/
def splitOnceCh (sep : Char) : Chars → Option (Chars × Chars)
  | [] => none
  | c :: cs =>
    if c = sep then some ([], cs)
    else (splitOnceCh sep cs).map (fun p => (c :: p.1, p.2))

/-- Rust `str::split_once(pat)` for a string pattern. -/
def splitOnceStr (pat : Chars) : Chars → Option (Chars × Chars)
  | [] => if pat.isPrefixOf ([] : Chars) then some ([], []) else none
  | c :: cs =>
    if pat.isPrefixOf (c :: cs) then some ([], (c :: cs).drop pat.length)
    else (splitOnceStr pat cs).map (fun p => (c :: p.1, p.2))

/-- Helper of `tokens`: accumulates the current (reversed) token. -/
def tokensAux (cur : Chars) : Chars → List Chars
  | [] => if cur = [] then [] else [cur.reverse]
  | c :: cs =>
    if isWs c then
      if cur = [] then tokensAux [] cs else cur.reverse :: tokensAux [] cs
    else tokensAux (c :: cur) cs

/-- Rust `str::split_whitespace` collected into a list of tokens. -/
def tokens (l : Chars) : List Chars := tokensAux [] l

/-- Core of `replaceAll`: Rust `str::replace` walks the text left to right,
replacing non-overlapping matches of a non-empty pattern.  A match consumes
`pat.length ≥ 1` characters, so text length bounds the steps; `fuel` makes
that structural (`replaceAll` supplies `fuel = l.length`, which never runs
out). -/
def replaceCore (pat rep : Chars) : Nat → Chars → Chars
  | 0, l => l
  | _, [] => []
  | fuel + 1, c :: cs =>
    if 0 < pat.length ∧ pat.isPrefixOf (c :: cs) then
      rep ++ replaceCore pat rep fuel (cs.drop (pat.length - 1))
    else c :: replaceCore pat rep fuel cs

/-- Rust `str::replace(pat, rep)`.  The callers in the sources only ever pass
non-empty patterns (macro keys are whitespace-split tokens and the
`@group_binding(..)` pattern is a literal), so the empty-pattern case is left
as the identity. -/
def replaceAll (pat rep l : Chars) : Chars :=
  if pat.length = 0 then l else replaceCore pat rep l.length l

/-- Rust `str::strip_prefix(c)`. -/
def stripPrefixCh (c : Char) (l : Chars) : Option Chars :=
  match l with
  | [] => none
  | x :: xs => if x = c then some xs else none

/-- Rust `str::strip_suffix(c)`. -/
def stripSuffixCh (c : Char) (l : Chars) : Option Chars :=
  (stripPrefixCh c l.reverse).map List.reverse

/-- In-place variant: `if let Some(new) = s.strip_prefix(c) { s = new }`. -/
def stripPrefixIf (c : Char) (l : Chars) : Chars := (stripPrefixCh c l).getD l

/-- In-place variant: `if let Some(new) = s.strip_suffix(c) { s = new }`. -/
def stripSuffixIf (c : Char) (l : Chars) : Chars := (stripSuffixCh c l).getD l

/-- The double-quote character (U+0022). -/
def quoteCh : Char := Char.ofNat 34

/-- Raw split of a text at newline characters: `n` newlines yield `n + 1`
segments (the list is never empty). -/
def splitNl : Chars → List Chars
  | [] => [[]]
  | c :: cs =>
    if c = '\n' then [] :: splitNl cs
    else
      match splitNl cs with
      | [] => [[c]]
      | s :: ss => (c :: s) :: ss

/-- Strip one trailing carriage return (applied by Rust `BufRead::lines` to
every line that was terminated by a newline). -/
def stripCr (l : Chars) : Chars :=
  match l.getLast? with
  | some c => if c = '\r' then l.dropLast else l
  | none => l

/-- Rust `BufRead::lines` over an in-memory cursor: lines are the segments
between newlines, each newline-terminated segment loses a trailing `\r`, and
a final unterminated segment is a line only when non-empty. -/
def rustLines (text : Chars) : List Chars :=
  let segs := splitNl text
  segs.dropLast.map stripCr ++ (if segs.getLast? = some [] then [] else segs.drop (segs.length - 1))

/-! ## Association lists (model of `std::collections::HashMap`) -/

/-- Insert-or-overwrite for an association list (`HashMap::insert`). -/
def setAssoc {α β : Type} [DecidableEq α] (k : α) (v : β) : List (α × β) → List (α × β)
  | [] => [(k, v)]
  | (k₀, v₀) :: t => if k₀ = k then (k, v) :: t else (k₀, v₀) :: setAssoc k v t

/-- Removal for an association list (`HashMap::remove`). -/
def removeAssoc {α β : Type} [DecidableEq α] (k : α) (l : List (α × β)) : List (α × β) :=
  l.filter (fun kv => kv.1 != k)

/-- Lookup for an association list (`HashMap::get` / `contains_key`). -/
def lookupAssoc {α β : Type} [DecidableEq α] (k : α) : List (α × β) → Option β
  | [] => none
  | (k₀, v₀) :: t => if k₀ = k then some v₀ else lookupAssoc k t

/-! ## Symbolic `@group_binding(NAME)` allocation

The closure passed by `WGSLBindgen::generate_naga_module_for_source`
(src/wgsl_bindgen/src/bindgen/bindgen.rs, lines 25-41) to `fully_preprocess`:
a global group counter `group_n` plus a map `encountered` from the label to
its assigned `(group, next_binding)` entry. -/

/-- The ambient state of the `group_and_binding_for` closure. -/
structure AllocState where
  groupN : Nat
  encountered : List (Chars × (Nat × Nat))
  deriving DecidableEq, Repr

/-- Fresh closure state (`group_n = 0`, empty `encountered` map). -/
def allocInit : AllocState := ⟨0, []⟩

/-- One invocation of the closure: `entry(..).or_insert_with(|| {let n = group_n;
group_n += 1; (n, 0)})`, return a copy of the entry, then `it.1 += 1`. -/
def groupAndBindingFor (a : AllocState) (name : Chars) : (Nat × Nat) × AllocState :=
  match lookupAssoc name a.encountered with
  | none =>
    ((a.groupN, 0), ⟨a.groupN + 1, setAssoc name (a.groupN, 1) a.encountered⟩)
  | some (g, b) =>
    ((g, b), ⟨a.groupN, setAssoc name (g, b + 1) a.encountered⟩)

/-- Run the closure over a list of label occurrences, collecting the returned
`(group, binding)` pairs. -/
def allocRun (a : AllocState) : List Chars → List (Nat × Nat) × AllocState
  | [] => ([], a)
  | n :: rest =>
    let r := groupAndBindingFor a n
    let rs := allocRun r.2 rest
    (r.1 :: rs.1, rs.2)

/-- The `(group, binding)` pairs assigned to a source-ordered list of
`@group_binding` label occurrences within one preprocessing run. -/
def allocResults (names : List Chars) : List (Nat × Nat) :=
  (allocRun allocInit names).1

/-! ## The conditional resolver

`preprocess_resolve_ifdefs_implementation` (src/wgsl_bindgen/src/lib.rs,
lines 319-474), composed with the closure above.  The `encountered_ifdef`
callback is the no-op `|key| {}` in that composition and is dropped.  The
`panic!` on a stray `#import` is modelled with `Except.error`. -/

/-- Macro table: key to replacement text (`defs: &mut HashMap<String, String>`). -/
abbrev Defs := List (Chars × Chars)

/-- The loop state of the resolver: nesting `depth`, the suppression flag
`should_skip`, the macro table, and the binding-allocation closure state. -/
structure IfdefState where
  depth : Nat
  shouldSkip : Bool
  defs : Defs
  alloc : AllocState
  deriving DecidableEq, Repr

/-- What the directive-handling block of the loop body produces: the updated
depth / skip flag / table, whether the line is commented out, and the audit
`reason` text. -/
structure DirectiveOut where
  depth : Nat
  shouldSkip : Bool
  defs : Defs
  comment : Bool
  reason : Option Chars
  deriving DecidableEq, Repr

/-- The directive-handling block (`if line_trimmed.starts_with('#') { .. }`):
`lt` is the trimmed line.  Comment status starts as `should_skip`. -/
def directiveStep (s : IfdefState) (lt : Chars) : Except Chars DirectiveOut :=
  let base : DirectiveOut := ⟨s.depth, s.shouldSkip, s.defs, s.shouldSkip, none⟩
  if startsWithCh '#' lt then
    match splitOnceCh '#' lt with
    | none => .ok base
    | some (_, r) =>
      match tokens r with
      | [] => .ok base
      | op :: args =>
        if s.shouldSkip then
          .ok
            (if op = lit "endif" then
              { base with depth := if s.depth > 0 then s.depth - 1 else s.depth }
            else if op = lit "ifdef" then
              { base with depth := s.depth + 1 }
            else if op = lit "else" then
              (if s.depth > 0 then
                { base with depth := s.depth - 1, reason := some (lit " (true)") }
              else
                { base with reason := some (lit " (false)") })
            else base)
        else
          if op = lit "endif" then
            .ok { base with depth := if s.depth > 0 then s.depth - 1 else s.depth,
                            comment := true }
          else if op = lit "ifdef" then
            .ok
              (match args.head? with
              | some key =>
                if (lookupAssoc key s.defs).isSome then
                  { base with reason := some (lit " (true)"), comment := true }
                else
                  { base with depth := s.depth + 1, shouldSkip := true,
                              reason := some (lit " (false)"), comment := true }
              | none => { base with comment := true })
          else if op = lit "else" then
            .ok
              (if s.depth > 0 then
                { base with reason := some (lit " (true)"), depth := s.depth - 1,
                            comment := true }
              else
                { base with reason := some (lit " (false)"), comment := true })
          else if op = lit "define" then
            .ok
              (match args with
              | key :: valRest =>
                let key := trim key
                { base with reason := some (lit " (defined " ++ key ++ lit ")"),
                            defs := setAssoc key (trim ((valRest.head?).getD [])) s.defs,
                            comment := true }
              | [] => { base with comment := true })
          else if op = lit "undef" ∨ op = lit "undefine" then
            .ok
              (match args.head? with
              | some key =>
                let key := trim key
                { base with reason := some (lit " (undefined " ++ key ++ lit ")"),
                            defs := removeAssoc key s.defs, comment := true }
              | none => { base with comment := true })
          else if op = lit "import" then
            .error (lit "imports should have already been resolved by a previous pass")
          else .ok base
  else .ok base

/-- Decimal rendering of a number, as Rust `format!` prints a `usize`. -/
def natChars (n : Nat) : Chars := (Nat.repr n).toList

/-- The `@group_binding(NAME)` rewrite block (`if line_trimmed.starts_with('@')
{ .. }`): parses the label out of the trimmed line `lt`, consults the
allocation closure, and replaces every `@group_binding(NAME)` occurrence in
the (untrimmed) `line`.  Runs on every line, suppressed or not. -/
def rewriteStep (alloc : AllocState) (lt line : Chars) : Chars × AllocState :=
  if startsWithCh '@' lt then
    match splitOnceCh '@' lt with
    | none => (line, alloc)
    | some (_, r₁) =>
      match splitOnceStr (lit "group_binding") r₁ with
      | none => (line, alloc)
      | some (_, r₂) =>
        match splitOnceCh '(' r₂ with
        | none => (line, alloc)
        | some (_, r₃) =>
          match splitOnceCh ')' r₃ with
          | none => (line, alloc)
          | some (name₀, _) =>
            let name := trim name₀
            let (gb, alloc₁) := groupAndBindingFor alloc name
            let pat := lit "@group_binding(" ++ name ++ lit ")"
            let rep := lit "@group(" ++ natChars gb.1 ++ lit ") @binding(" ++
              natChars gb.2 ++ lit ")"
            (replaceAll pat rep line, alloc₁)
  else (line, alloc)

/-- Macro substitution on an emitted line: `for (key, value) in defs.iter()
{ replaced_line = replaced_line.replace(key, &value); }` (association-list
iteration order stands in for the unspecified `HashMap` order). -/
def substituteDefs (defs : Defs) (l : Chars) : Chars :=
  defs.foldl (fun acc kv => replaceAll kv.1 kv.2 acc) l

/-- One iteration of the resolver loop: directive handling, the
`@group_binding` rewrite, emission (commented or macro-substituted), and the
`stop_skipping` check.  Returns the updated state and the emitted text. -/
def processLine (s : IfdefState) (line : Chars) : Except Chars (IfdefState × Chars) :=
  let lt := trim line
  match directiveStep s lt with
  | .error e => .error e
  | .ok d =>
    let ra := rewriteStep s.alloc lt line
    let out : Chars :=
      if d.comment then
        lit "//\t\t" ++ ra.1 ++
          (match d.reason with
          | some r => '\t' :: r
          | none => []) ++ ['\n']
      else
        substituteDefs d.defs ra.1 ++ ['\n']
    let skip₁ := if d.shouldSkip ∧ d.depth = 0 then false else d.shouldSkip
    .ok (⟨d.depth, skip₁, d.defs, ra.2⟩, out)

/-- The resolver loop over all input lines. -/
def processLines (s : IfdefState) : List Chars → Except Chars (IfdefState × Chars)
  | [] => .ok (s, [])
  | line :: rest =>
    match processLine s line with
    | .error e => .error e
    | .ok (s₁, out) =>
      match processLines s₁ rest with
      | .error e => .error e
      | .ok (s₂, outs) => .ok (s₂, out ++ outs)

/-- `preprocess_resolve_ifdefs_implementation`: runs the loop from
`depth = start_depth`, `should_skip = (depth != 0)`. -/
def preprocessResolveIfdefsImpl (defs : Defs) (alloc : AllocState) (startDepth : Nat)
    (lines : List Chars) : Except Chars (IfdefState × Chars) :=
  processLines ⟨startDepth, startDepth != 0, defs, alloc⟩ lines

/-- `preprocess_resolve_ifdefs` as composed by `generate_naga_module_for_source`:
start at depth 0 with a fresh allocation closure (the non-zero final depth only
triggers a diagnostic print, which the model drops). -/
def preprocessResolveIfdefs (defs : Defs) (lines : List Chars) :
    Except Chars (IfdefState × Chars) :=
  preprocessResolveIfdefsImpl defs allocInit 0 lines

/-! ## The import resolver

`preprocess_resolve_imports_recursively` (src/wgsl_bindgen/src/lib.rs,
lines 235-316): expands `#import` / `#include` lines recursively through the
caller-supplied lookup, bounded by `MAX_RECURSION`. -/

/-- Strip the accepted delimiters off an import name, in source order:
leading `"`, trailing `"`, leading `<`, trailing `>`. -/
def stripDelims (name : Chars) : Chars :=
  stripSuffixIf '>' (stripPrefixIf '<' (stripSuffixIf quoteCh (stripPrefixIf quoteCh name)))

/-- The `// {line_trimmed} // BEGIN #import '{name}'` marker line. -/
def beginMarker (lt name : Chars) : Chars :=
  lit "// " ++ lt ++ lit " // BEGIN #import '" ++ name ++ lit "'" ++ ['\n']

/-- The `// END #import '{name}'` marker line. -/
def endMarker (name : Chars) : Chars :=
  lit "// END #import '" ++ name ++ lit "'" ++ ['\n']

/-- The non-fatal failure marker replacing an unresolvable directive line. -/
def errMarker (lt : Chars) : Chars :=
  lit "// " ++ lt ++ lit " // ERROR: Preprocessor could not include file, skipped" ++ ['\n']

/-- Processing of one line of `preprocess_resolve_imports_recursively`.
`look` models `get_source_of_file_name` (`none` when the caller supplied no
lookup) and `expand` maps an imported file's source text to its recursively
resolved expansion (one recursion level deeper). -/
def importEmit (look : Option (Chars → Option Chars)) (expand : Chars → Chars)
    (line : Chars) : Chars :=
  let lt := trim line
  if startsWithCh '#' lt then
    match splitOnceCh '#' lt with
    | none => line ++ ['\n']
    | some (_, r) =>
      match tokens r with
      | [] => line ++ ['\n']
      | op :: args =>
        if op = lit "import" ∨ op = lit "include" then
          match look with
          | some f =>
            match args.head? with
            | some rawName =>
              let name := stripDelims rawName
              match f name with
              | some src => beginMarker lt name ++ expand src ++ endMarker name
              | none => errMarker lt
            | none => errMarker lt
          | none => errMarker lt
        else line ++ ['\n']
    else line ++ ['\n']

/-- The per-level line loop: emit every line in order. -/
def resolveLevel (look : Option (Chars → Option Chars)) (expand : Chars → Chars) :
    List Chars → Chars
  | [] => []
  | line :: rest => importEmit look expand line ++ resolveLevel look expand rest

/-- The recursion of `preprocess_resolve_imports_recursively`, indexed by the
remaining recursion budget `r = MAX_RECURSION + 1 - depth` instead of `depth`
(a transparent reindexing that makes the Rust recursion structural): a call
whose depth exceeds the maximum (`r = 0`) returns the empty text without
reading its input; otherwise every line is processed at this level, and
each imported file expands one budget step lower. -/
def resolveGo (look : Option (Chars → Option Chars)) :
    Nat → List Chars → Chars
  | 0, _ => []
  | r + 1, lines =>
    resolveLevel look (fun src => resolveGo look r (rustLines src)) lines

/-- `preprocess_resolve_imports_recursively`: the `depth > MAX_RECURSION`
ceiling on entry corresponds to a zero remaining budget. -/
def preprocessResolveImportsRec (look : Option (Chars → Option Chars))
    (maxRec depth : Nat) (text : Chars) : Chars :=
  if depth > maxRec then [] else resolveGo look (maxRec + 1 - depth) (rustLines text)

/-- `preprocess_resolve_imports`: `MAX_RECURSION = 100`, starting depth 0. -/
def preprocessResolveImports (look : Option (Chars → Option Chars)) (text : Chars) : Chars :=
  preprocessResolveImportsRec look 100 0 text

/-! ## The validated IR (the fragment of `naga::Module` the claims touch)

Types live in an arena and are referred to by handle (index).  naga's
`UniqueArena` guarantees a type's component handles precede it, captured
below by `Arena.wf`. -/

/-- `naga::StorageAccess`: the LOAD / STORE bitflags. -/
structure StorageAccess where
  load : Bool
  store : Bool
  deriving DecidableEq, Repr

/-- `naga::AddressSpace` (the variants the claims touch; the rest are
collapsed into `other`, which `buffer_binding_type` answers with a panic). -/
inductive AddressSpace where
  | uniform
  | storage (access : StorageAccess)
  | other
  deriving DecidableEq, Repr

/-- The value of the `wgpu::BufferBindingType` token tree produced by
`buffer_binding_type` (src/wgsl_bindgen/src/wgsl.rs, lines 19-35); `panic`
stands for the `todo!()` arm. -/
inductive BufferBindingType where
  | uniform
  | storage (readOnly : Bool)
  | panic
  deriving DecidableEq, Repr

/-- `buffer_binding_type`: uniform ⇒ Uniform; storage ⇒ Storage with
`read_only = !access.contains(STORE)` (the LOAD flag is read into `_is_read`
and never consulted). -/
def buffer_binding_type : AddressSpace → BufferBindingType
  | .uniform => .uniform
  | .storage access =>
    let _is_read := access.load
    let is_write := access.store
    if is_write then .storage false else .storage true
  | .other => .panic

/-- `naga::TypeInner`, restricted to the structure `add_types_recursive`
walks: pointer / array / binding-array bases and struct member types.  Any
other shape has no type components. -/
inductive TypeInner where
  | pointer (base : Nat)
  | array (base : Nat) (dynamicSize : Bool)
  | structT (memberTys : List Nat)
  | bindingArray (base : Nat)
  | other
  deriving DecidableEq, Repr

/-- The component handles of a type (the handles `add_types_recursive`
recurses into). -/
def TypeInner.components : TypeInner → List Nat
  | .pointer base => [base]
  | .array base _ => [base]
  | .structT memberTys => memberTys
  | .bindingArray base => [base]
  | .other => []

/-- The type arena of a module. -/
abbrev Arena := List TypeInner

/-- naga's handle ordering invariant: every component handle of the type at
index `i` is a valid handle smaller than `i`. -/
def Arena.wf (m : Arena) : Prop :=
  ∀ i : Nat, i < m.length → ∀ c ∈ ((m.get? i).getD .other).components, c < i

instance (m : Arena) : Decidable m.wf :=
  decidable_of_iff
    ((List.range m.length).all fun i =>
      ((m.get? i).getD .other).components.all fun c => decide (c < i))
    (by simp [Arena.wf, List.all_eq_true, List.mem_range])

/-- `naga::ResourceBinding`: an explicit `@group(..) @binding(..)` annotation. -/
structure ResourceBinding where
  group : Nat
  binding : Nat
  deriving DecidableEq, Repr

/-- `naga::GlobalVariable`, restricted to the fields the claims touch. -/
structure GlobalVariable where
  name : Option Chars
  space : AddressSpace
  binding : Option ResourceBinding
  ty : Nat
  deriving DecidableEq, Repr

/-- The fragment of `naga::Module` the claims touch. -/
structure Module where
  types : Arena
  global_variables : List GlobalVariable
  deriving DecidableEq, Repr

/-! ## Host-shareability (src/wgsl_bindgen/src/structs.rs) -/

/-- `add_types_recursive`: inserts `ty` into the set and recurses into its
components.  The source recursion is well-founded because component handles
strictly decrease (`Arena.wf`); the embedding makes that explicit with
`fuel`, and `structs_items` invokes it with enough fuel for any valid
handle. -/
def addTypesRecursive (m : Arena) : Nat → List Nat → Nat → List Nat
  | 0, types, _ => types
  | fuel + 1, types, ty =>
    let types := if ty ∈ types then types else types ++ [ty]
    let inner := (m.get? ty).getD .other
    inner.components.foldl (fun acc c => addTypesRecursive m fuel acc c) types

/-- The `global_variable_types` set built by `structs_items`
(src/wgsl_bindgen/src/structs.rs, lines 13-16): every type reachable from a
global variable's type. -/
def globalVariableTypes (mod : Module) : List Nat :=
  mod.global_variables.foldl
    (fun acc g => addTypesRecursive mod.types (mod.types.length + 1) acc g.ty) []

/-- The `is_host_sharable` flag `rust_struct` computes for the struct at
handle `t` (src/wgsl_bindgen/src/structs.rs, line 82):
`global_variable_types.contains(&t_handle)`. -/
def isHostShareable (mod : Module) (t : Nat) : Bool :=
  t ∈ globalVariableTypes mod

/-- Reachability through pointer / array / struct-member / binding-array
edges, starting at a handle (reflexive-transitive). -/
inductive Reaches (m : Arena) : Nat → Nat → Prop where
  | refl (a : Nat) : Reaches m a a
  | step {a b c : Nat} : Reaches m a b → c ∈ ((m.get? b).getD .other).components →
      Reaches m a c

/-! ## Bind-group extraction (src/wgsl_bindgen/src/generate/bind_group/mod.rs) -/

/-- `CreateModuleError` (src/wgsl_bindgen/src/lib.rs, lines 35-45). -/
inductive CreateModuleError where
  | NonConsecutiveBindGroups
  | DuplicateBinding (binding : Nat)
  deriving DecidableEq, Repr

/-- `GroupBinding`: one annotated resource inside a group (the
`binding_type` reference is kept as the type handle). -/
structure GroupBinding where
  name : Option Chars
  binding_index : Nat
  binding_ty : Nat
  address_space : AddressSpace
  deriving DecidableEq, Repr

/-- `GroupData`: the bindings collected for one group index. -/
structure GroupData where
  bindings : List GroupBinding
  deriving DecidableEq, Repr

/-- `BTreeMap::entry(g).or_insert(default)` followed by writing back the
updated value: insert-or-replace keeping the keys strictly sorted. -/
def btreeSet (k : Nat) (v : GroupData) : List (Nat × GroupData) → List (Nat × GroupData)
  | [] => [(k, v)]
  | (k₀, v₀) :: t =>
    if k < k₀ then (k, v) :: (k₀, v₀) :: t
    else if k = k₀ then (k, v) :: t
    else (k₀, v₀) :: btreeSet k v t

/-- One iteration of the `get_bind_group_data` loop: skip unannotated
globals, fetch (or create) the group, reject a repeated binding index inside
it, else push the new `GroupBinding`. -/
def bindGroupStep (groups : List (Nat × GroupData)) (g : GlobalVariable) :
    Except CreateModuleError (List (Nat × GroupData)) :=
  match g.binding with
  | none => .ok groups
  | some binding =>
    let group := (lookupAssoc binding.group groups).getD ⟨[]⟩
    if group.bindings.any (fun gb => gb.binding_index = binding.binding) then
      .error (.DuplicateBinding binding.binding)
    else
      let gb : GroupBinding :=
        ⟨g.name, binding.binding, g.ty, g.space⟩
      .ok (btreeSet binding.group ⟨group.bindings ++ [gb]⟩ groups)

/-- The `get_bind_group_data` loop over all globals. -/
def bindGroupFold (groups : List (Nat × GroupData)) :
    List GlobalVariable → Except CreateModuleError (List (Nat × GroupData))
  | [] => .ok groups
  | g :: rest =>
    match bindGroupStep groups g with
    | .error e => .error e
    | .ok groups₁ => bindGroupFold groups₁ rest

/-- `get_bind_group_data` (src/wgsl_bindgen/src/generate/bind_group/mod.rs,
lines 460-502): build the group map, then require the sorted key sequence to
equal `0..groups.len()`. -/
def get_bind_group_data (mod : Module) :
    Except CreateModuleError (List (Nat × GroupData)) :=
  match bindGroupFold [] mod.global_variables with
  | .error e => .error e
  | .ok groups =>
    if groups.map Prod.fst = List.range groups.length then .ok groups
    else .error .NonConsecutiveBindGroups

/-! ## Projections used to state concrete resolver runs -/

/-- The final macro table of a resolver run (`none` when the run panicked). -/
def runDefs (r : Except Chars (IfdefState × Chars)) : Option Defs :=
  match r with
  | .ok p => some p.1.defs
  | .error _ => none

/-- The emitted text of a resolver run. -/
def runOut (r : Except Chars (IfdefState × Chars)) : Option Chars :=
  match r with
  | .ok p => some p.2
  | .error _ => none

/-- The final binding-allocation state of a resolver run. -/
def runAlloc (r : Except Chars (IfdefState × Chars)) : Option AllocState :=
  match r with
  | .ok p => some p.1.alloc
  | .error _ => none

/-- Initial macro table for the C1 run: `BAR` is defined before the run. -/
def c1Defs : Defs := [(lit "BAR", lit "2")]

/-- The C1 run: a `#define` and an `#undef` inside a false `#ifdef` branch. -/
def c1Lines : List Chars :=
  [lit "#ifdef NOPE", lit "#define FOO 1", lit "#undef BAR", lit "#endif"]

/-! ## C2: the `X X X Y X` symbolic-binding scenario -/

/-- The C2 occurrence order: `X` three times, `Y` once, `X` once more. -/
def c2Names : List Chars := [lit "X", lit "X", lit "X", lit "Y", lit "X"]

/-- The C2 scenario as full source lines fed to the resolver. -/
def c2Lines : List Chars :=
  c2Names.map fun n => lit "@group_binding(" ++ n ++ lit ")"

/-! ## C9: where the `@group_binding` rewrite applies -/

/-- A line containing `@group_binding(A)` whose trimmed text does not begin
with `@`. -/
def c9Line : Chars := lit "var x; @group_binding(A) y"

/-! ## C10: the rewrite and its callback run in suppressed regions -/

/-- A symbolic binding inside a false `#ifdef` branch, then one outside. -/
def c10Lines : List Chars :=
  [lit "#ifdef MISSING", lit "@group_binding(A)", lit "#endif", lit "@group_binding(B)"]

/-! ## C3: the general symbolic-binding allocation policy -/

/-- Index of the first occurrence of `n` in a list (its length when absent). -/
def firstIdx (n : Chars) : List Chars → Nat
  | [] => 0
  | m :: r => if m = n then 0 else firstIdx n r + 1

/-- The invariant the closure state satisfies after the occurrence prefix `p`:
`group_n` counts the distinct labels seen, and the `encountered` entry of a
label holds its group (the number of distinct labels preceding its first
occurrence) and its occurrence count so far. -/
def AllocInv (p : List Chars) (a : AllocState) : Prop :=
  a.groupN = p.toFinset.card ∧
  ∀ n : Chars, lookupAssoc n a.encountered =
    if n ∈ p then some ((p.take (firstIdx n p)).toFinset.card, p.count n) else none

/-- The source order used for the C3 concrete check. -/
def c3Names : List Chars := [lit "a", lit "b", lit "a", lit "c", lit "b"]

/-! ## C5: the import resolver on import-free input -/

/-- A list of lines, rendered back as newline-terminated text. -/
def joinLines (ls : List Chars) : Chars :=
  (ls.map (fun l => l ++ ['\n'])).flatten

/-- Whether a line is recognized as an `#import` / `#include` directive by
the import resolver: the trimmed line starts with `#` and the first
whitespace-separated token after the first `#` is `import` or `include`. -/
def isImportLine (line : Chars) : Bool :=
  if startsWithCh '#' (trim line) then
    match splitOnceCh '#' (trim line) with
    | none => false
    | some (_, r) =>
      match tokens r with
      | [] => false
      | op :: _ => decide (op = lit "import" ∨ op = lit "include")
  else false

/-- Import-free text for the C5 concrete check. -/
def c5OkText : Chars := lit "fn f(a: u32) -> u32\nreturn a;\n"

/-- An `#include` line (not an `#import` line) plus a line with no trailing
newline, both inputs for the C5 counterexample. -/
def c5IncText : Chars := lit "#include \"x\"\n"

/-! ## C4: bind-group extraction validity -/

/-- The `(group, binding)` annotations of the binding-annotated globals, in
source order. -/
def annotated (gs : List GlobalVariable) : List (Nat × Nat) :=
  gs.filterMap (fun g => g.binding.map (fun b => (b.group, b.binding)))

/-- The group indices used form a consecutive run starting at 0. -/
def consecutiveFromZero (ps : List (Nat × Nat)) : Prop :=
  (ps.map Prod.fst).toFinset = Finset.range (ps.map Prod.fst).toFinset.card

/-- The error component of a `get_bind_group_data` result. -/
def bindGroupError (r : Except CreateModuleError (List (Nat × GroupData))) :
    Option CreateModuleError :=
  match r with
  | .error e => some e
  | .ok _ => none

/-- The invariant of the `get_bind_group_data` loop after the annotation
prefix `P` has been consumed without error: keys strictly sorted, the group
map's contents are exactly the pairs of `P`, and no duplicate pair has been
seen. -/
def BGInv (P : List (Nat × Nat)) (groups : List (Nat × GroupData)) : Prop :=
  (groups.map Prod.fst).Sorted (· < ·) ∧
  (∀ g b, (g, b) ∈ P ↔
    ∃ d, lookupAssoc g groups = some d ∧ b ∈ d.bindings.map GroupBinding.binding_index) ∧
  (∀ g, (lookupAssoc g groups).isSome = true ↔ g ∈ P.map Prod.fst) ∧
  P.Nodup

/-- A binding-annotated uniform global for the C4 concrete modules. -/
def mkBindGV (g b : Nat) : GlobalVariable := ⟨none, .uniform, some ⟨g, b⟩, 0⟩

/-- Groups `{0, 1, 1, 2}` with distinct bindings inside group 1. -/
def c4OkModule : Module := ⟨[], [mkBindGV 0 0, mkBindGV 1 0, mkBindGV 1 1, mkBindGV 2 0]⟩

/-- Groups `{0, 2}`: group 1 is skipped. -/
def c4GapModule : Module := ⟨[], [mkBindGV 0 0, mkBindGV 2 0]⟩

/-- Arena with a scalar type (0), a struct used by a uniform global (1), and
a struct with the same member that no global reaches — as when it only
appears as a vertex-entry-point argument (2). -/
def c8Module : Module :=
  ⟨[.other, .structT [0], .structT [0]], [⟨none, .uniform, some ⟨0, 0⟩, 1⟩]⟩

/-- Worst-case output size of one resolution level with `j` levels of
expansion budget below it, for files of at most `L` lines of at most `K`
characters. -/
def sizeBoundLvl (K L : Nat) : Nat → Nat
  | 0 => 0
  | j + 1 => L * (4 * K + 64 + sizeBoundLvl K L j)

/-- A one-line self-import cycle: file `a` contains `#import a`. -/
def c6CycLook : Chars → Option Chars :=
  fun n => if n = lit "a" then some (lit "#import a") else none

/-- A file that imports itself twice per expansion. -/
def c6BombText : Chars := lit "#import a\n#import a"

/-- Lookup resolving `a` to the doubly self-importing file. -/
def c6BombLook : Chars → Option Chars :=
  fun n => if n = lit "a" then some c6BombText else none

/-- The C6 claim's output-size bound, as stated: output length at most
proportional (uniform constant `C`) to `max_depth × per-file size`, where
the per-file size `S` bounds the input text and every looked-up file. -/
def importLinearBoundClaim : Prop :=
  ∃ C : Nat, ∀ (maxRec : Nat) (f : Chars → Option Chars) (text : Chars) (S : Nat),
    text.length ≤ S →
    (∀ name src, f name = some src → src.length ≤ S) →
    (preprocessResolveImportsRec (some f) maxRec 0 text).length ≤ C * maxRec * S

/-! ## C7: storage buffer read_only classification -/

/-- C7 — confirmed.  For every global resource in the storage address space
classified as a buffer binding, `buffer_binding_type` yields
`Storage { read_only }` with `read_only = NOT(access includes STORE)`:
LOAD-only access gives `read_only = true`, and STORE access (with or without
LOAD) gives `read_only = false`. -/
theorem buffer_binding_type_storage_read_only :
    (∀ access : StorageAccess,
        buffer_binding_type (.storage access) = .storage (!access.store))
    ∧ buffer_binding_type (.storage ⟨true, false⟩) = .storage true
    ∧ buffer_binding_type (.storage ⟨true, true⟩) = .storage false
    ∧ buffer_binding_type (.storage ⟨false, true⟩) = .storage false := by
  refine ⟨fun access => ?_, rfl, rfl, rfl⟩
  obtain ⟨load, store⟩ := access
  cases store <;> rfl

/-! ## C1: `#define` / `#undef` inside a suppressed region -/

/-- If output is suppressed, the directive-handling block only adjusts
`depth` (for `endif` / `ifdef` / `else`): it never errors and never touches
the macro table. -/
theorem directiveStep_skip (s : IfdefState) (lt : Chars) (h : s.shouldSkip = true) :
    ∃ d, directiveStep s lt = .ok d ∧ d.defs = s.defs := by
  unfold directiveStep
  repeat' split
  all_goals exact ⟨_, rfl, rfl⟩

/-- C1 — counterexample.  Claim: `#define FOO 1` / `#undef BAR` inside the
suppressed `#ifdef NOPE` region still mutate the table, so afterwards `FOO`
would map to `1` and `BAR` would be gone.  The code leaves the table exactly
as it was: `FOO` is absent and `BAR` still maps to `2`. -/
theorem skipped_define_counterexample :
    (runDefs (preprocessResolveIfdefs c1Defs c1Lines)).map
        (fun defs => (lookupAssoc (lit "FOO") defs, lookupAssoc (lit "BAR") defs))
      = some (none, some (lit "2")) := by decide

/-- C1 — corrected.  While output is suppressed (`skip = true`) the resolver
never mutates the DefineTable: `#define` and `#undef` directives (like every
other line) fall into the skip branch's catch-all and leave the table
unchanged; the table is only mutated in active regions.  Conjunct 2 runs the
`c1Lines` scenario: after the suppressed `#define FOO 1` / `#undef BAR` the
table is still exactly `c1Defs`. -/
theorem skipped_define_leaves_table :
    (∀ (s : IfdefState) (line : Chars), s.shouldSkip = true →
        ∃ s₁ out, processLine s line = .ok (s₁, out) ∧ s₁.defs = s.defs)
    ∧ runDefs (preprocessResolveIfdefs c1Defs c1Lines) = some c1Defs := by
  constructor
  · intro s line h
    obtain ⟨d, hd, hdefs⟩ := directiveStep_skip s (trim line) h
    simp only [processLine, hd]
    exact ⟨_, _, rfl, hdefs⟩
  · decide

/-- C2 — counterexample.  The five occurrences receive
`(0,0), (0,1), (0,2), (1,0), (0,3)`: the occurrences of `X` get bindings
`0, 1, 2, 3` — in particular binding `2` is assigned to `X` (third
occurrence), which the claimed assignment `X ↦ bindings 0, 1, 3` does not
contain. -/
theorem group_binding_xxxyx_counterexample :
    allocResults c2Names = [(0, 0), (0, 1), (0, 2), (1, 0), (0, 3)]
    ∧ (0, 2) ∈ allocResults c2Names := by decide

/-- C2 — corrected.  With occurrences `X X X Y X`, `X` resolves to group 0
with bindings `0, 1, 2, 3` (the occurrence after `Y` receiving binding 3)
and `Y` to group 1 with binding 0.  Conjunct 2 checks the whole resolver on
the five source lines: each is rewritten in place with those indices. -/
theorem group_binding_xxxyx :
    allocResults c2Names = [(0, 0), (0, 1), (0, 2), (1, 0), (0, 3)]
    ∧ runOut (preprocessResolveIfdefs [] c2Lines) =
        some (lit "@group(0) @binding(0)\n@group(0) @binding(1)\n@group(0) @binding(2)\n@group(1) @binding(0)\n@group(0) @binding(3)\n")
    ∧ runAlloc (preprocessResolveIfdefs [] c2Lines) =
        some ⟨2, [(lit "X", (0, 4)), (lit "Y", (1, 1))]⟩ := by
  refine ⟨by decide, by decide, by decide⟩

/-! ## Generic correctness of the `@group_binding` rewrite on a matching line -/

theorem trimLeft_eq_nil {ws : Chars} (h : ∀ c ∈ ws, isWs c = true) :
    trimLeft ws = [] := by
  induction ws with
  | nil => rfl
  | cons w t ih =>
    rw [trimLeft, if_pos (h w (List.mem_cons_self w t))]
    exact ih (fun c hc => h c (List.mem_cons_of_mem w hc))

theorem trimLeft_append_nonws (xs : Chars) {c : Char} (ys : Chars)
    (hc : isWs c = false) : trimLeft (xs ++ c :: ys) = trimLeft xs ++ c :: ys := by
  induction xs with
  | nil =>
    simp only [List.nil_append, trimLeft, hc]
    rfl
  | cons x t ih =>
    rw [List.cons_append, trimLeft, trimLeft]
    by_cases hx : isWs x = true
    · rw [if_pos hx, if_pos hx, ih]
    · rw [if_neg hx, if_neg hx, List.cons_append]

theorem trimRight_cons_append {c : Char} (xs ys : Chars) (hc : isWs c = false) :
    trimRight (xs ++ c :: ys) = xs ++ c :: trimRight ys := by
  unfold trimRight
  have h1 : (xs ++ c :: ys).reverse = ys.reverse ++ c :: xs.reverse := by simp
  rw [h1, trimLeft_append_nonws ys.reverse xs.reverse hc]
  simp

theorem splitOnceCh_append_of_not_mem {c : Char} {xs : Chars} (ys : Chars)
    (h : c ∉ xs) : splitOnceCh c (xs ++ c :: ys) = some (xs, ys) := by
  induction xs with
  | nil => simp [splitOnceCh]
  | cons x t ih =>
    have hx : ¬ x = c := fun hc => h (hc ▸ List.mem_cons_self x t)
    rw [List.cons_append, splitOnceCh, if_neg hx,
      ih (fun hc => h (List.mem_cons_of_mem x hc))]
    rfl

theorem isPrefixOf_append_self (pat t : Chars) :
    pat.isPrefixOf (pat ++ t) = true := by
  induction pat with
  | nil => cases t <;> rfl
  | cons p ps ih => simp [List.isPrefixOf, ih]

theorem splitOnceStr_self_append (pat t : Chars) :
    splitOnceStr pat (pat ++ t) = some ([], t) := by
  cases pat with
  | nil =>
    cases t with
    | nil => simp [splitOnceStr, List.isPrefixOf]
    | cons c cs => simp [splitOnceStr, List.isPrefixOf]
  | cons p ps =>
    rw [List.cons_append, splitOnceStr,
      if_pos (by rw [← List.cons_append]; exact isPrefixOf_append_self (p :: ps) t)]
    rw [← List.cons_append, List.drop_left]

theorem replaceCore_no_at {pat rep : Chars} (hpat : pat.head? = some '@') :
    ∀ (fuel : Nat) (t : Chars), '@' ∉ t → replaceCore pat rep fuel t = t := by
  intro fuel
  induction fuel with
  | zero =>
    intro t _
    cases t <;> rfl
  | succ fuel ih =>
    intro t ht
    match t with
    | [] => rfl
    | c :: cs =>
      have hnc : ¬ (0 < pat.length ∧ pat.isPrefixOf (c :: cs) = true) := by
        rintro ⟨-, hpre⟩
        cases pat with
        | nil => cases hpat
        | cons p ps =>
          have hp : p = '@' := by simpa using hpat
          subst hp
          simp only [List.isPrefixOf, Bool.and_eq_true, beq_iff_eq] at hpre
          refine ht ?_
          rw [hpre.1]
          exact List.mem_cons_self c cs
      rw [replaceCore, if_neg hnc, ih cs (fun hm => ht (List.mem_cons_of_mem c hm))]

theorem replaceCore_ws {pat rep : Chars} (hpat : pat.head? = some '@') :
    ∀ (ws : Chars), (∀ c ∈ ws, isWs c = true) → ∀ (fuel : Nat) (t : Chars),
      (ws ++ t).length ≤ fuel →
      replaceCore pat rep fuel (ws ++ t) =
        ws ++ replaceCore pat rep (fuel - ws.length) t := by
  intro ws
  induction ws with
  | nil =>
    intro _ fuel t _
    simp
  | cons w t' ih =>
    intro hws fuel t hlen
    cases fuel with
    | zero =>
      simp only [List.length_append, List.length_cons] at hlen
      omega
    | succ fuel =>
      have hw : isWs w = true := hws w (List.mem_cons_self w t')
      have hnc : ¬ (0 < pat.length ∧ pat.isPrefixOf (w :: (t' ++ t)) = true) := by
        rintro ⟨-, hpre⟩
        cases pat with
        | nil => cases hpat
        | cons p ps =>
          have hp : p = '@' := by simpa using hpat
          subst hp
          simp only [List.isPrefixOf, Bool.and_eq_true, beq_iff_eq] at hpre
          rw [← hpre.1] at hw
          exact absurd hw (by decide)
      rw [List.cons_append, replaceCore, if_neg hnc]
      rw [ih (fun c hc => hws c (List.mem_cons_of_mem w hc)) fuel t
        (by simp only [List.length_append, List.length_cons] at hlen ⊢; omega)]
      simp only [List.length_cons, List.cons_append, Nat.succ_sub_succ]

theorem replaceCore_match {pat rep post : Chars} (hpat : pat.head? = some '@')
    (hpost : '@' ∉ post) : ∀ (fuel : Nat), 1 ≤ fuel →
    replaceCore pat rep fuel (pat ++ post) = rep ++ post := by
  intro fuel h1
  cases fuel with
  | zero => omega
  | succ fuel =>
    cases pat with
    | nil => cases hpat
    | cons p ps =>
      have hp : p = '@' := by simpa using hpat
      subst hp
      rw [List.cons_append, replaceCore,
        if_pos ⟨by simp, by rw [← List.cons_append]; exact isPrefixOf_append_self _ _⟩]
      have hdrop : (ps ++ post).drop (('@' :: ps).length - 1) = post := by
        simp only [List.length_cons, Nat.add_sub_cancel]
        exact List.drop_left ps post
      rw [hdrop, replaceCore_no_at hpat fuel post hpost]

theorem replaceAll_ws_pat_post {pat rep ws post : Chars} (hpat : pat.head? = some '@')
    (hws : ∀ c ∈ ws, isWs c = true) (hpost : '@' ∉ post) :
    replaceAll pat rep (ws ++ pat ++ post) = ws ++ rep ++ post := by
  have hpat0 : pat.length ≠ 0 := by
    cases pat with
    | nil => cases hpat
    | cons p ps => simp
  unfold replaceAll
  rw [if_neg hpat0, List.append_assoc]
  rw [replaceCore_ws hpat ws hws _ _ (Nat.le_refl _)]
  have hfuel : 1 ≤ (ws ++ (pat ++ post)).length - ws.length := by
    simp only [List.length_append]
    cases pat with
    | nil => cases hpat
    | cons p ps =>
      simp only [List.length_cons]
      omega
  rw [replaceCore_match hpat hpost _ hfuel, List.append_assoc]

theorem trim_ws_at_line {ws post : Chars} (mid : Chars)
    (hws : ∀ c ∈ ws, isWs c = true) :
    trim (ws ++ ('@' :: mid) ++ (')' :: post)) =
      ('@' :: mid) ++ (')' :: trimRight post) := by
  unfold trim
  have h1 : ws ++ ('@' :: mid) ++ (')' :: post) =
      ws ++ '@' :: (mid ++ ')' :: post) := by simp
  rw [h1, trimLeft_append_nonws ws (mid ++ ')' :: post) (by decide),
    trimLeft_eq_nil hws, List.nil_append]
  have h2 : '@' :: (mid ++ ')' :: post) = ('@' :: mid) ++ ')' :: post := by simp
  rw [h2, trimRight_cons_append ('@' :: mid) post (by decide)]

/-- On a line that begins (after leading whitespace `ws`) with
`@group_binding(name)` and continues with `@`-free text, the rewrite block
extracts exactly `name`, consults the allocation closure, and replaces the
occurrence in place with `@group(G) @binding(B)`. -/
theorem rewriteStep_generic (alloc : AllocState) (ws name post : Chars)
    (hws : ∀ c ∈ ws, isWs c = true) (hname : trim name = name)
    (hnp : ')' ∉ name) (hpost : '@' ∉ post) :
    rewriteStep alloc
        (trim (ws ++ (lit "@group_binding(" ++ name ++ lit ")") ++ post))
        (ws ++ (lit "@group_binding(" ++ name ++ lit ")") ++ post) =
      (ws ++ (lit "@group(" ++ natChars (groupAndBindingFor alloc name).1.1 ++
          lit ") @binding(" ++ natChars (groupAndBindingFor alloc name).1.2 ++
          lit ")") ++ post,
        (groupAndBindingFor alloc name).2) := by
  have hshape : ws ++ (lit "@group_binding(" ++ name ++ lit ")") ++ post =
      ws ++ ('@' :: (lit "group_binding(" ++ name)) ++ (')' :: post) := by
    show ws ++ (('@' :: lit "group_binding(") ++ name ++ lit ")") ++ post = _
    simp [show (lit ")") = [')'] from rfl]
  have htrim : trim (ws ++ (lit "@group_binding(" ++ name ++ lit ")") ++ post) =
      ('@' :: (lit "group_binding(" ++ name)) ++ (')' :: trimRight post) := by
    rw [hshape]
    exact trim_ws_at_line _ hws
  have h1 : splitOnceCh '@'
      (('@' :: (lit "group_binding(" ++ name)) ++ (')' :: trimRight post)) =
      some ([], (lit "group_binding(" ++ name) ++ (')' :: trimRight post)) := by
    rw [List.cons_append]
    simp [splitOnceCh]
  have hgb : lit "group_binding(" = lit "group_binding" ++ ['('] := by decide
  have h2 : splitOnceStr (lit "group_binding")
      ((lit "group_binding(" ++ name) ++ (')' :: trimRight post)) =
      some ([], '(' :: (name ++ ')' :: trimRight post)) := by
    have hx : (lit "group_binding(" ++ name) ++ (')' :: trimRight post) =
        lit "group_binding" ++ ('(' :: (name ++ ')' :: trimRight post)) := by
      rw [hgb]
      simp
    rw [hx, splitOnceStr_self_append]
  have h3 : splitOnceCh '(' ('(' :: (name ++ ')' :: trimRight post)) =
      some ([], name ++ ')' :: trimRight post) := by
    simp [splitOnceCh]
  have h4 : splitOnceCh ')' (name ++ ')' :: trimRight post) =
      some (name, trimRight post) :=
    splitOnceCh_append_of_not_mem _ hnp
  have hsw : startsWithCh '@'
      (('@' :: (lit "group_binding(" ++ name)) ++ (')' :: trimRight post)) = true := by
    rw [List.cons_append]
    rfl
  rw [htrim]
  have hpat : (lit "@group_binding(" ++ name ++ lit ")").head? = some '@' := rfl
  rcases hab : groupAndBindingFor alloc name with ⟨gb, alloc₁⟩
  simp only [rewriteStep, hsw, if_true, h1, h2, h3, h4, hname, hab]
  rw [replaceAll_ws_pat_post hpat hws hpost]

/-- C9 — counterexample.  Claim: any line containing `@group_binding(NAME)`,
wherever it appears, is rewritten.  `c9Line` contains the substring but its
trimmed text starts with `v`, so the code emits it verbatim and never
invokes the allocation callback (the closure state stays `allocInit`). -/
theorem group_binding_mid_line_counterexample :
    runOut (preprocessResolveIfdefs [] [c9Line]) = some (c9Line ++ ['\n'])
    ∧ runAlloc (preprocessResolveIfdefs [] [c9Line]) = some allocInit
    ∧ (splitOnceStr (lit "@group_binding(A)") c9Line).isSome = true := by decide

/-- C9 — corrected.  The rewrite only applies to lines whose trimmed text
begins with `@`: on other lines `rewriteStep` returns the line and the
closure state untouched (conjunct 1), while a line that does begin (after
leading whitespace `ws`) with `@group_binding(name)` and continues with
`@`-free text is rewritten in place to `@group(G) @binding(B)` with
`(G, B)` from the symbolic binding table (conjunct 2, generically; conjuncts
3 and 4 run a concrete such line through the resolver: the first occurrence
of `tex` gets group 0 binding 0). -/
theorem group_binding_rewrite_needs_at_start :
    (∀ (alloc : AllocState) (line : Chars), startsWithCh '@' (trim line) = false →
        rewriteStep alloc (trim line) line = (line, alloc))
    ∧ (∀ (alloc : AllocState) (ws name post : Chars),
        (∀ c ∈ ws, isWs c = true) → trim name = name → ')' ∉ name → '@' ∉ post →
        rewriteStep alloc
            (trim (ws ++ (lit "@group_binding(" ++ name ++ lit ")") ++ post))
            (ws ++ (lit "@group_binding(" ++ name ++ lit ")") ++ post) =
          (ws ++ (lit "@group(" ++ natChars (groupAndBindingFor alloc name).1.1 ++
              lit ") @binding(" ++ natChars (groupAndBindingFor alloc name).1.2 ++
              lit ")") ++ post,
            (groupAndBindingFor alloc name).2))
    ∧ runOut (preprocessResolveIfdefs [] [lit "  @group_binding(tex)"]) =
        some (lit "  @group(0) @binding(0)\n")
    ∧ runAlloc (preprocessResolveIfdefs [] [lit "  @group_binding(tex)"]) =
        some ⟨1, [(lit "tex", (0, 1))]⟩ := by
  refine ⟨fun alloc line h => ?_, rewriteStep_generic, by decide, by decide⟩
  simp only [rewriteStep, h]
  simp

/-- C10 — confirmed.  The `@group_binding` rewrite block and its
group/binding-allocating callback run on every line regardless of the skip
state: whenever `processLine` succeeds, the resulting closure state is the
one `rewriteStep` computes from the incoming line alone (conjunct 1).
Concretely (conjuncts 2 and 3): in `c10Lines` the occurrence of `A` inside
the suppressed region still allocates group 0 binding 0 — the substituted
indices appear in the emitted comment — and shifts the later active
occurrence of `B` to group 1. -/
theorem group_binding_rewrite_in_skipped_region :
    (∀ (s : IfdefState) (line : Chars) (s₁ : IfdefState) (out : Chars),
        processLine s line = .ok (s₁, out) →
        s₁.alloc = (rewriteStep s.alloc (trim line) line).2)
    ∧ runOut (preprocessResolveIfdefs [] c10Lines) =
        some (lit "//\t\t#ifdef MISSING\t (false)\n//\t\t@group(0) @binding(0)\n//\t\t#endif\n@group(1) @binding(0)\n")
    ∧ runAlloc (preprocessResolveIfdefs [] c10Lines) =
        some ⟨2, [(lit "A", (0, 1)), (lit "B", (1, 1))]⟩ := by
  refine ⟨fun s line s₁ out h => ?_, by decide, by decide⟩
  simp only [processLine] at h
  cases hd : directiveStep s (trim line) with
  | error e => rw [hd] at h; exact absurd h (by simp)
  | ok d =>
    rw [hd] at h
    simp only [Except.ok.injEq, Prod.mk.injEq] at h
    rw [← h.1]

theorem lookupAssoc_setAssoc_self {α β : Type} [DecidableEq α] (k : α) (v : β)
    (l : List (α × β)) : lookupAssoc k (setAssoc k v l) = some v := by
  induction l with
  | nil => simp [setAssoc, lookupAssoc]
  | cons kv t ih =>
    obtain ⟨k₀, v₀⟩ := kv
    by_cases h : k₀ = k
    · simp [setAssoc, h, lookupAssoc]
    · simp [setAssoc, h, lookupAssoc, ih]

theorem lookupAssoc_setAssoc_ne {α β : Type} [DecidableEq α] {k k' : α} (v : β)
    (l : List (α × β)) (h : k' ≠ k) :
    lookupAssoc k' (setAssoc k v l) = lookupAssoc k' l := by
  induction l with
  | nil => simp [setAssoc, lookupAssoc, h, Ne.symm h]
  | cons kv t ih =>
    obtain ⟨k₀, v₀⟩ := kv
    by_cases h₀ : k₀ = k
    · subst h₀
      have : ¬ k₀ = k' := fun hc => h (hc ▸ rfl)
      simp [setAssoc, lookupAssoc, this]
    · by_cases h₁ : k₀ = k'
      · simp [setAssoc, h₀, lookupAssoc, h₁, h]
      · simp [setAssoc, h₀, lookupAssoc, h₁, ih]

theorem firstIdx_lt_length {n : Chars} {p : List Chars} (h : n ∈ p) :
    firstIdx n p < p.length := by
  induction p with
  | nil => cases h
  | cons m t ih =>
    by_cases hm : m = n
    · simp [firstIdx, hm]
    · have : n ∈ t := by
        cases h with
        | head => exact absurd rfl hm
        | tail _ h => exact h
      simp only [firstIdx, hm, if_false, List.length_cons]
      exact Nat.succ_lt_succ (ih this)

theorem firstIdx_append_of_mem {n : Chars} {p : List Chars} (h : n ∈ p) (r : List Chars) :
    firstIdx n (p ++ r) = firstIdx n p := by
  induction p with
  | nil => cases h
  | cons m t ih =>
    by_cases hm : m = n
    · simp [firstIdx, hm]
    · have : n ∈ t := by
        cases h with
        | head => exact absurd rfl hm
        | tail _ h => exact h
      simp [firstIdx, hm, ih this]

theorem firstIdx_append_not_mem {n : Chars} {p : List Chars} (h : n ∉ p) (r : List Chars) :
    firstIdx n (p ++ n :: r) = p.length := by
  induction p with
  | nil => simp [firstIdx]
  | cons m t ih =>
    have hm : ¬ m = n := fun hc => h (hc ▸ List.mem_cons_self m t)
    have ht : n ∉ t := fun hc => h (List.mem_cons_of_mem m hc)
    simp [firstIdx, hm, ih ht]

theorem allocInv_nil : AllocInv [] allocInit := by
  refine ⟨by simp [allocInit], fun n => by simp [allocInit, lookupAssoc]⟩

theorem allocInv_step {p : List Chars} {a : AllocState} (m : Chars) (h : AllocInv p a) :
    (∀ s : List Chars,
        (groupAndBindingFor a m).1 =
          (((p ++ m :: s).take (firstIdx m (p ++ m :: s))).toFinset.card, p.count m))
    ∧ AllocInv (p ++ [m]) (groupAndBindingFor a m).2 := by
  obtain ⟨hg, hl⟩ := h
  by_cases hm : m ∈ p
  · have hfi : ∀ r, firstIdx m (p ++ r) = firstIdx m p := firstIdx_append_of_mem hm
    have hlt : firstIdx m p ≤ p.length := Nat.le_of_lt (firstIdx_lt_length hm)
    have hlook : lookupAssoc m a.encountered =
        some ((p.take (firstIdx m p)).toFinset.card, p.count m) := by
      rw [hl m]; simp [hm]
    constructor
    · intro s
      simp only [groupAndBindingFor, hlook, hfi, List.take_append_of_le_length hlt]
    · constructor
      · have : (p ++ [m]).toFinset = p.toFinset := by
          rw [List.toFinset_append]
          simp [Finset.union_eq_left, List.mem_toFinset.mpr hm]
        simp only [groupAndBindingFor, hlook, this, hg]
      · intro n
        by_cases hn : n = m
        · subst hn
          simp only [groupAndBindingFor, hlook, lookupAssoc_setAssoc_self]
          have hmem : n ∈ p ++ [n] := by simp
          rw [if_pos hmem, hfi, List.take_append_of_le_length hlt]
          simp [List.count_append]
        · simp only [groupAndBindingFor, hlook, lookupAssoc_setAssoc_ne _ _ hn]
          rw [hl n]
          by_cases hnp : n ∈ p
          · have hmem : n ∈ p ++ [m] := by simp [hnp]
            have hfi' : firstIdx n (p ++ [m]) = firstIdx n p :=
              firstIdx_append_of_mem hnp [m]
            have hlt' : firstIdx n p ≤ p.length := Nat.le_of_lt (firstIdx_lt_length hnp)
            rw [if_pos hnp, if_pos hmem, hfi', List.take_append_of_le_length hlt']
            have : List.count n [m] = 0 := by
              simp [List.count_cons, hn]
            simp [List.count_append, this]
          · have hmem : n ∉ p ++ [m] := by simp [hnp, hn]
            rw [if_neg hnp, if_neg hmem]
  · have hlook : lookupAssoc m a.encountered = none := by rw [hl m]; simp [hm]
    constructor
    · intro s
      have hfi := firstIdx_append_not_mem hm s
      simp only [groupAndBindingFor, hlook, hfi, List.take_left]
      rw [List.count_eq_zero.mpr hm, hg]
    · constructor
      · have : (p ++ [m]).toFinset = insert m p.toFinset := by
          rw [List.toFinset_append]
          simp [Finset.union_comm, Finset.insert_eq]
        simp only [groupAndBindingFor, hlook, this]
        rw [Finset.card_insert_of_not_mem (fun hc => hm (List.mem_toFinset.mp hc)), hg]
      · intro n
        by_cases hn : n = m
        · subst hn
          simp only [groupAndBindingFor, hlook, lookupAssoc_setAssoc_self]
          have hmem : n ∈ p ++ [n] := by simp
          have hfi : firstIdx n (p ++ [n]) = p.length := firstIdx_append_not_mem hm []
          rw [if_pos hmem, hfi, List.take_left]
          have : List.count n [n] = 1 := by simp
          rw [List.count_append, List.count_eq_zero.mpr hm, this, hg]
        · simp only [groupAndBindingFor, hlook, lookupAssoc_setAssoc_ne _ _ hn]
          rw [hl n]
          by_cases hnp : n ∈ p
          · have hmem : n ∈ p ++ [m] := by simp [hnp]
            have hfi' : firstIdx n (p ++ [m]) = firstIdx n p :=
              firstIdx_append_of_mem hnp [m]
            have hlt' : firstIdx n p ≤ p.length := Nat.le_of_lt (firstIdx_lt_length hnp)
            rw [if_pos hnp, if_pos hmem, hfi', List.take_append_of_le_length hlt']
            have : List.count n [m] = 0 := by simp [List.count_cons, hn]
            simp [List.count_append, this]
          · have hmem : n ∉ p ++ [m] := by simp [hnp, hn]
            rw [if_neg hnp, if_neg hmem]

theorem allocRun_get (rest : List Chars) : ∀ (p : List Chars) (a : AllocState),
    AllocInv p a → ∀ (j : Nat) (n : Chars), rest.get? j = some n →
    (allocRun a rest).1.get? j =
      some (((p ++ rest).take (firstIdx n (p ++ rest))).toFinset.card,
            ((p ++ rest).take (p.length + j)).count n) := by
  induction rest with
  | nil => intro p a _ j n hj; cases hj
  | cons m rest ih =>
    intro p a hInv j n hj
    obtain ⟨hr, hInv'⟩ := allocInv_step m hInv
    match j with
    | 0 =>
      have hn : n = m := by
        simp only [List.get?_cons_zero, Option.some.injEq] at hj
        exact hj.symm
      subst hn
      simp only [allocRun, List.get?_cons_zero, Option.some.injEq]
      rw [hr rest]
      have : (p ++ n :: rest).take (p.length + 0) = p := by
        rw [Nat.add_zero]
        exact List.take_left p (n :: rest)
      rw [this]
    | j + 1 =>
      simp only [allocRun, List.get?_cons_succ] at hj ⊢
      have := ih (p ++ [m]) (groupAndBindingFor a m).2 hInv' j n hj
      rw [List.append_assoc, List.singleton_append] at this
      rw [this]
      have hlen : (p ++ [m]).length + j = p.length + (j + 1) := by
        simp [List.length_append]
        omega
      rw [hlen]

/-- C3 — confirmed.  For every run of `@group_binding` occurrences, the
occurrence at position `i` of label `n` is assigned the group equal to the
number of distinct labels preceding the first occurrence of `n` (so the first
occurrence of each distinct label takes the next unused group index, counter
starting at 0 and incremented once per distinct label, with binding 0) and
the binding equal to the number of earlier occurrences of `n` (so bindings
are sequential per label: 0, 1, 2, ... with no gaps).  Conjunct 2 runs the
policy on `a b a c b`. -/
theorem group_binding_allocation_policy :
    (∀ (names : List Chars) (i : Nat) (n : Chars), names.get? i = some n →
        (allocResults names).get? i =
          some (((names.take (firstIdx n names)).toFinset.card,
                 (names.take i).count n)))
    ∧ allocResults c3Names = [(0, 0), (1, 0), (0, 1), (2, 0), (1, 1)] := by
  constructor
  · intro names i n h
    have := allocRun_get names [] allocInit allocInv_nil i n h
    simpa [allocResults] using this
  · decide

theorem splitNl_append {l : Chars} (r : Chars) (h : '\n' ∉ l) :
    splitNl (l ++ '\n' :: r) = l :: splitNl r := by
  induction l with
  | nil => simp [splitNl]
  | cons c cs ih =>
    have hc : ¬ c = '\n' := fun hc => h (hc ▸ List.mem_cons_self c cs)
    have hcs : '\n' ∉ cs := fun hm => h (List.mem_cons_of_mem c hm)
    rw [List.cons_append]
    simp only [splitNl, hc, if_false, ih hcs]

theorem splitNl_joinLines {ls : List Chars} (h : ∀ l ∈ ls, '\n' ∉ l) :
    splitNl (joinLines ls) = ls ++ [[]] := by
  induction ls with
  | nil => simp [joinLines, splitNl]
  | cons l t ih =>
    have hl : '\n' ∉ l := h l (List.mem_cons_self l t)
    have ht : ∀ x ∈ t, '\n' ∉ x := fun x hx => h x (List.mem_cons_of_mem l hx)
    have : joinLines (l :: t) = l ++ '\n' :: joinLines t := by
      simp [joinLines]
    rw [this, splitNl_append _ hl, ih ht]
    simp

theorem stripCr_of_ne {l : Chars} (h : l.getLast? ≠ some '\r') : stripCr l = l := by
  unfold stripCr
  match hg : l.getLast? with
  | none => rfl
  | some c =>
    have : ¬ c = '\r' := fun hc => h (hc ▸ hg)
    simp [this]

theorem rustLines_joinLines {ls : List Chars} (h1 : ∀ l ∈ ls, '\n' ∉ l)
    (h2 : ∀ l ∈ ls, l.getLast? ≠ some '\r') :
    rustLines (joinLines ls) = ls := by
  unfold rustLines
  rw [splitNl_joinLines h1]
  simp only [List.dropLast_concat, List.getLast?_concat]
  rw [if_pos trivial, List.append_nil]
  exact (List.map_congr_left fun l hl => stripCr_of_ne (h2 l hl)).trans (List.map_id ls)

theorem importEmit_nonimport (look : Option (Chars → Option Chars))
    (expand : Chars → Chars) {line : Chars} (h : isImportLine line = false) :
    importEmit look expand line = line ++ ['\n'] := by
  unfold isImportLine at h
  simp only [importEmit]
  by_cases hsw : startsWithCh '#' (trim line) = true
  · rw [if_pos hsw] at h ⊢
    match hsp : splitOnceCh '#' (trim line) with
    | none => simp only [hsp]
    | some (pre, r) =>
      simp only [hsp] at h ⊢
      match htok : tokens r with
      | [] => simp only [htok]
      | op :: args =>
        simp only [htok] at h ⊢
        rw [decide_eq_false_iff_not] at h
        rw [if_neg h]
  · rw [if_neg hsw]

theorem resolveLevel_nonimport (look : Option (Chars → Option Chars))
    (expand : Chars → Chars) {ls : List Chars}
    (h : ∀ l ∈ ls, isImportLine l = false) :
    resolveLevel look expand ls = joinLines ls := by
  induction ls with
  | nil => simp [resolveLevel, joinLines]
  | cons l t ih =>
    have hl := h l (List.mem_cons_self l t)
    have ht : ∀ x ∈ t, isImportLine x = false := fun x hx => h x (List.mem_cons_of_mem l hx)
    rw [resolveLevel, importEmit_nonimport look expand hl, ih ht]
    simp [joinLines]

/-- C5 — counterexample.  Claim: the resolver is the identity on every
well-formed input without an `#import` line.  Two inputs without any
`#import` line on which it is not: an `#include` directive line (expanded /
replaced by the failure marker exactly like `#import`), and a text whose last
line lacks a terminating newline (the resolver re-emits every line
newline-terminated). -/
theorem resolve_imports_identity_counterexample :
    preprocessResolveImports none c5IncText =
      lit "// #include \"x\" // ERROR: Preprocessor could not include file, skipped\n"
    ∧ (splitOnceStr (lit "#import") c5IncText).isSome = false
    ∧ preprocessResolveImports none (lit "let a = 1") = lit "let a = 1\n" := by
  refine ⟨by decide, by decide, by decide⟩

/-- C5 — corrected.  The resolver is the identity exactly on texts that are
concatenations of newline-terminated lines (no interior newline, no
carriage-return before the newline) none of which is an `#import` or
`#include` directive — and this for every lookup function.  Conjunct 2 checks
a concrete such text. -/
theorem resolve_imports_identity :
    (∀ (look : Option (Chars → Option Chars)) (ls : List Chars),
        (∀ l ∈ ls, '\n' ∉ l) → (∀ l ∈ ls, l.getLast? ≠ some '\r') →
        (∀ l ∈ ls, isImportLine l = false) →
        preprocessResolveImports look (joinLines ls) = joinLines ls)
    ∧ preprocessResolveImports none c5OkText = c5OkText := by
  constructor
  · intro look ls h1 h2 h3
    unfold preprocessResolveImports preprocessResolveImportsRec
    rw [if_neg (by omega)]
    rw [rustLines_joinLines h1 h2]
    show resolveGo look (100 + 1 - 0) (ls) = joinLines ls
    rw [resolveGo]
    exact resolveLevel_nonimport look _ h3
  · decide

theorem lookupAssoc_btreeSet_self (k : Nat) (v : GroupData)
    (l : List (Nat × GroupData)) : lookupAssoc k (btreeSet k v l) = some v := by
  induction l with
  | nil => simp [btreeSet, lookupAssoc]
  | cons kv t ih =>
    obtain ⟨k₀, v₀⟩ := kv
    unfold btreeSet
    by_cases h1 : k < k₀
    · simp [h1, lookupAssoc]
    · by_cases h2 : k = k₀
      · simp [h1, h2, lookupAssoc]
      · have : ¬ k₀ = k := fun hc => h2 hc.symm
        simp [h1, h2, lookupAssoc, this, ih]

theorem lookupAssoc_btreeSet_ne {k k' : Nat} (v : GroupData)
    (l : List (Nat × GroupData)) (h : k' ≠ k) :
    lookupAssoc k' (btreeSet k v l) = lookupAssoc k' l := by
  induction l with
  | nil => simp [btreeSet, lookupAssoc, Ne.symm h]
  | cons kv t ih =>
    obtain ⟨k₀, v₀⟩ := kv
    unfold btreeSet
    by_cases h1 : k < k₀
    · simp [h1, lookupAssoc, Ne.symm h]
    · by_cases h2 : k = k₀
      · subst h2
        simp [h1, lookupAssoc, Ne.symm h]
      · by_cases h3 : k₀ = k'
        · subst h3
          simp [h1, h2, lookupAssoc]
        · simp [h1, h2, lookupAssoc, h3, ih]

theorem mem_fst_btreeSet {k g : Nat} {v : GroupData} {l : List (Nat × GroupData)} :
    g ∈ (btreeSet k v l).map Prod.fst ↔ g = k ∨ g ∈ l.map Prod.fst := by
  induction l with
  | nil => simp [btreeSet]
  | cons kv t ih =>
    obtain ⟨k₀, v₀⟩ := kv
    unfold btreeSet
    by_cases h1 : k < k₀
    · simp [h1]
      try tauto
    · by_cases h2 : k = k₀
      · subst h2
        simp [h1]
        try tauto
      · simp [h1, h2, ih]
        try tauto

theorem sorted_btreeSet {l : List (Nat × GroupData)}
    (h : (l.map Prod.fst).Sorted (· < ·)) (k : Nat) (v : GroupData) :
    ((btreeSet k v l).map Prod.fst).Sorted (· < ·) := by
  induction l with
  | nil => simp [btreeSet]
  | cons kv t ih =>
    obtain ⟨k₀, v₀⟩ := kv
    rw [List.map_cons, List.sorted_cons] at h
    obtain ⟨hall, hrest⟩ := h
    unfold btreeSet
    by_cases h1 : k < k₀
    · rw [if_pos h1]
      rw [List.map_cons, List.sorted_cons]
      refine ⟨?_, ?_⟩
      · intro b hb
        rw [List.map_cons] at hb
        cases hb with
        | head => exact h1
        | tail _ hb => exact Nat.lt_trans h1 (hall b hb)
      · rw [List.map_cons, List.sorted_cons]
        exact ⟨hall, hrest⟩
    · by_cases h2 : k = k₀
      · subst h2
        rw [if_neg h1, if_pos rfl]
        rw [List.map_cons, List.sorted_cons]
        exact ⟨hall, hrest⟩
      · rw [if_neg h1, if_neg h2]
        rw [List.map_cons, List.sorted_cons]
        have hk₀k : k₀ < k := by omega
        refine ⟨?_, ih hrest⟩
        intro b hb
        rcases mem_fst_btreeSet.mp hb with hbk | hbm
        · omega
        · exact hall b hbm

theorem lookupAssoc_isSome_iff_mem {α β : Type} [DecidableEq α] {k : α}
    {l : List (α × β)} : (lookupAssoc k l).isSome = true ↔ k ∈ l.map Prod.fst := by
  induction l with
  | nil => simp [lookupAssoc]
  | cons kv t ih =>
    obtain ⟨k₀, v₀⟩ := kv
    by_cases h : k₀ = k
    · simp [lookupAssoc, h]
    · simp [lookupAssoc, h, ih, Ne.symm h]

theorem bgInv_nil : BGInv [] [] := by
  refine ⟨by simp, fun g b => by simp [lookupAssoc], fun g => by simp [lookupAssoc], by simp⟩

theorem annotated_cons_none {g : GlobalVariable} (gs : List GlobalVariable)
    (hb : g.binding = none) : annotated (g :: gs) = annotated gs := by
  simp [annotated, hb]

theorem annotated_cons_some {g : GlobalVariable} (gs : List GlobalVariable)
    {rb : ResourceBinding} (hb : g.binding = some rb) :
    annotated (g :: gs) = (rb.group, rb.binding) :: annotated gs := by
  simp [annotated, hb]

/-- The map contents agree with the processed prefix: a binding index is in
the (possibly default-empty) group entry exactly when the pair was seen. -/
theorem bgInv_mem_old {P : List (Nat × Nat)} {groups : List (Nat × GroupData)}
    (hInv : BGInv P groups) (gq b : Nat) :
    b ∈ (((lookupAssoc gq groups).getD ⟨[]⟩).bindings.map GroupBinding.binding_index)
      ↔ (gq, b) ∈ P := by
  obtain ⟨-, hii, -, -⟩ := hInv
  rw [hii gq b]
  cases hl : lookupAssoc gq groups with
  | none => simp [hl]
  | some d => simp [hl]

/-- The duplicate test of `bindGroupStep` fires exactly on a repeated
`(group, binding)` pair. -/
theorem bgInv_dup_test {P : List (Nat × Nat)} {groups : List (Nat × GroupData)}
    (hInv : BGInv P groups) (gq b : Nat) :
    ((((lookupAssoc gq groups).getD ⟨[]⟩).bindings.any
        (fun gb => gb.binding_index = b)) = true) ↔ (gq, b) ∈ P := by
  rw [← bgInv_mem_old hInv gq b]
  simp [List.any_eq_true, List.mem_map]

theorem bgInv_push {P : List (Nat × Nat)} {groups : List (Nat × GroupData)}
    (hInv : BGInv P groups) (g : GlobalVariable)
    {rb : ResourceBinding} (hb : g.binding = some rb)
    (hnot : (rb.group, rb.binding) ∉ P) :
    bindGroupStep groups g =
      .ok (btreeSet rb.group
            ⟨((lookupAssoc rb.group groups).getD ⟨[]⟩).bindings ++
              [⟨g.name, rb.binding, g.ty, g.space⟩]⟩ groups)
    ∧ BGInv (P ++ [(rb.group, rb.binding)])
        (btreeSet rb.group
          ⟨((lookupAssoc rb.group groups).getD ⟨[]⟩).bindings ++
            [⟨g.name, rb.binding, g.ty, g.space⟩]⟩ groups) := by
  have htest := (bgInv_dup_test hInv rb.group rb.binding)
  have htest' :
      ((((lookupAssoc rb.group groups).getD ⟨[]⟩).bindings.any
        (fun gb => gb.binding_index = rb.binding)) = false) := by
    rw [← Bool.not_eq_true, htest]
    exact hnot
  obtain ⟨hi, hii, hiii, hiv⟩ := hInv
  constructor
  · unfold bindGroupStep
    rw [hb]
    simp only [htest']
    rfl
  · refine ⟨sorted_btreeSet hi rb.group _, ?_, ?_, ?_⟩
    · intro g' b'
      by_cases hg' : g' = rb.group
      · subst hg'
        rw [lookupAssoc_btreeSet_self]
        constructor
        · intro hmem
          refine ⟨_, rfl, ?_⟩
          simp only [List.map_append, List.mem_append]
          rcases List.mem_append.mp hmem with hp | hq
          · exact Or.inl ((bgInv_mem_old ⟨hi, hii, hiii, hiv⟩ rb.group b').mpr hp)
          · simp only [List.mem_singleton, Prod.mk.injEq] at hq
            right
            simp [hq.2]
        · rintro ⟨d, hd, hmem⟩
          cases hd
          simp only [List.map_append, List.mem_append] at hmem
          rcases hmem with hp | hq
          · exact List.mem_append.mpr
              (Or.inl ((bgInv_mem_old ⟨hi, hii, hiii, hiv⟩ rb.group b').mp hp))
          · simp only [List.map_cons, List.map_nil, List.mem_singleton] at hq
            subst hq
            simp
      · rw [lookupAssoc_btreeSet_ne _ _ hg']
        rw [← hii g' b']
        simp only [List.mem_append, List.mem_singleton, Prod.mk.injEq]
        constructor
        · rintro (hp | ⟨h1, h2⟩)
          · exact hp
          · exact absurd h1 hg'
        · exact Or.inl
    · intro g'
      by_cases hg' : g' = rb.group
      · subst hg'
        rw [lookupAssoc_btreeSet_self]
        simp
      · rw [lookupAssoc_btreeSet_ne _ _ hg']
        rw [hiii g']
        simp [hg']
    · rw [List.nodup_append]
      refine ⟨hiv, by simp, ?_⟩
      intro a ha hmem
      simp only [List.mem_singleton] at hmem
      subst hmem
      exact hnot ha

/-- The loop of `get_bind_group_data` succeeds exactly on duplicate-free
annotation sequences, and otherwise errors with the duplicated binding
index. -/
theorem bindGroupFold_spec : ∀ (gs : List GlobalVariable)
    (groups : List (Nat × GroupData)) (P : List (Nat × Nat)), BGInv P groups →
    ((P ++ annotated gs).Nodup →
      ∃ groups', bindGroupFold groups gs = .ok groups' ∧
        BGInv (P ++ annotated gs) groups')
    ∧ (¬ (P ++ annotated gs).Nodup →
      ∃ b g, bindGroupFold groups gs = .error (.DuplicateBinding b) ∧
        2 ≤ (P ++ annotated gs).count (g, b)) := by
  intro gs
  induction gs with
  | nil =>
    intro groups P hInv
    have hgoal : P ++ annotated [] = P := by simp [annotated]
    rw [hgoal]
    constructor
    · intro _
      exact ⟨groups, rfl, hInv⟩
    · intro hnd
      exact absurd hInv.2.2.2 hnd
  | cons g rest ih =>
    intro groups P hInv
    cases hb : g.binding with
    | none =>
      have hstep : bindGroupStep groups g = .ok groups := by
        unfold bindGroupStep
        rw [hb]
      have hfold : bindGroupFold groups (g :: rest) = bindGroupFold groups rest := by
        simp only [bindGroupFold, hstep]
      rw [annotated_cons_none rest hb, hfold]
      exact ih groups P hInv
    | some rb =>
      rw [annotated_cons_some rest hb]
      by_cases hmem : (rb.group, rb.binding) ∈ P
      · have htest :
            ((((lookupAssoc rb.group groups).getD ⟨[]⟩).bindings.any
              (fun gb => gb.binding_index = rb.binding)) = true) :=
          (bgInv_dup_test hInv rb.group rb.binding).mpr hmem
        have hstep : bindGroupStep groups g =
            .error (.DuplicateBinding rb.binding) := by
          unfold bindGroupStep
          rw [hb]
          simp only [htest]
          rfl
        have hfold : bindGroupFold groups (g :: rest) =
            .error (.DuplicateBinding rb.binding) := by
          simp only [bindGroupFold, hstep]
        constructor
        · intro hnd
          exfalso
          rw [List.nodup_append] at hnd
          exact hnd.2.2 hmem (by simp)
        · intro _
          refine ⟨rb.binding, rb.group, hfold, ?_⟩
          rw [List.count_append]
          have h1 : 0 < P.count (rb.group, rb.binding) := List.count_pos_iff.mpr hmem
          have h2 : 0 <
              ((rb.group, rb.binding) :: annotated rest).count (rb.group, rb.binding) :=
            List.count_pos_iff.mpr (by simp)
          omega
      · obtain ⟨hstep, hInv'⟩ := bgInv_push hInv g hb hmem
        have hfold : bindGroupFold groups (g :: rest) =
            bindGroupFold
              (btreeSet rb.group
                ⟨((lookupAssoc rb.group groups).getD ⟨[]⟩).bindings ++
                  [⟨g.name, rb.binding, g.ty, g.space⟩]⟩ groups) rest := by
          simp only [bindGroupFold, hstep]
        rw [hfold]
        have := ih _ (P ++ [(rb.group, rb.binding)]) hInv'
        rw [List.append_assoc, List.singleton_append] at this
        exact this

/-- The final consecutive-keys check of `get_bind_group_data` is exactly the
consecutive-run-from-zero condition on the group indices used. -/
theorem bgInv_keys_range_iff {P : List (Nat × Nat)} {groups : List (Nat × GroupData)}
    (hInv : BGInv P groups) :
    (groups.map Prod.fst = List.range groups.length) ↔ consecutiveFromZero P := by
  obtain ⟨hsort, -, hiii, -⟩ := hInv
  have hnodup : (groups.map Prod.fst).Nodup := hsort.nodup
  have hmem : ∀ g, g ∈ groups.map Prod.fst ↔ g ∈ P.map Prod.fst := fun g => by
    rw [← hiii g, lookupAssoc_isSome_iff_mem]
  have hKfin : (groups.map Prod.fst).toFinset = (P.map Prod.fst).toFinset := by
    ext x
    simp only [List.mem_toFinset]
    exact hmem x
  have hrangefin : ∀ n : Nat, (List.range n).toFinset = Finset.range n := by
    intro n
    ext x
    simp
  have hlen : (groups.map Prod.fst).length = groups.length := by simp
  constructor
  · intro h
    unfold consecutiveFromZero
    rw [← hKfin, h, hrangefin, Finset.card_range]
  · intro h
    unfold consecutiveFromZero at h
    have hcard : (P.map Prod.fst).toFinset.card = (groups.map Prod.fst).length := by
      rw [← hKfin, List.toFinset_card_of_nodup hnodup]
    have h2 : (groups.map Prod.fst).toFinset =
        (List.range (groups.map Prod.fst).length).toFinset := by
      rw [hKfin, h, hcard, hrangefin]
    have hperm : (groups.map Prod.fst).Perm (List.range (groups.map Prod.fst).length) :=
      List.perm_of_nodup_nodup_toFinset_eq hnodup (List.nodup_range _) h2
    have := List.eq_of_perm_of_sorted hperm hsort.le_of_lt
      (List.Sorted.le_of_lt (List.pairwise_lt_range _))
    rw [hlen] at this
    exact this

/-- C4 — confirmed.  `get_bind_group_data` returns `Ok` exactly when no two
binding-annotated globals share a `(group, binding)` pair and the set of
group indices used is a consecutive run starting at 0; a duplicate pair
yields `DuplicateBinding(index)` with `index` a binding index occurring at
least twice in its group, and a duplicate-free module with a gap or nonzero
start yields `NonConsecutiveBindGroups`.  Conjuncts 2 and 3: groups
`{0,1,1,2}` (distinct bindings inside group 1) succeed, groups `{0,2}` fail
with the non-consecutive error. -/
theorem get_bind_group_data_validity :
    (∀ mod : Module,
        ((get_bind_group_data mod).isOk = true ↔
          (annotated mod.global_variables).Nodup ∧
            consecutiveFromZero (annotated mod.global_variables))
        ∧ (¬ (annotated mod.global_variables).Nodup →
            ∃ b g, get_bind_group_data mod = .error (.DuplicateBinding b) ∧
              2 ≤ (annotated mod.global_variables).count (g, b))
        ∧ ((annotated mod.global_variables).Nodup →
            ¬ consecutiveFromZero (annotated mod.global_variables) →
            get_bind_group_data mod = .error .NonConsecutiveBindGroups))
    ∧ (get_bind_group_data c4OkModule).isOk = true
    ∧ bindGroupError (get_bind_group_data c4GapModule) =
        some .NonConsecutiveBindGroups := by
  refine ⟨?_, by decide, by decide⟩
  intro mod
  have hspec := bindGroupFold_spec mod.global_variables [] [] bgInv_nil
  simp only [List.nil_append] at hspec
  by_cases hnd : (annotated mod.global_variables).Nodup
  · obtain ⟨groups', hfold, hInv'⟩ := hspec.1 hnd
    have hget : get_bind_group_data mod =
        (if groups'.map Prod.fst = List.range groups'.length then .ok groups'
         else .error .NonConsecutiveBindGroups) := by
      unfold get_bind_group_data
      rw [hfold]
    refine ⟨?_, fun h => absurd hnd h, fun _ hcons => ?_⟩
    · rw [hget]
      by_cases hk : groups'.map Prod.fst = List.range groups'.length
      · rw [if_pos hk]
        simp only [Except.isOk]
        constructor
        · intro _
          exact ⟨hnd, (bgInv_keys_range_iff hInv').mp hk⟩
        · intro _
          rfl
      · rw [if_neg hk]
        simp only [Except.isOk]
        constructor
        · intro h
          cases h
        · intro ⟨_, hcons⟩
          exact absurd ((bgInv_keys_range_iff hInv').mpr hcons) hk
    · rw [hget, if_neg]
      intro hk
      exact hcons ((bgInv_keys_range_iff hInv').mp hk)
  · obtain ⟨b, g, hfold, hcount⟩ := hspec.2 hnd
    have hget : get_bind_group_data mod = .error (.DuplicateBinding b) := by
      unfold get_bind_group_data
      rw [hfold]
    refine ⟨?_, fun _ => ⟨b, g, hget, hcount⟩, fun h => absurd h hnd⟩
    rw [hget]
    simp only [Except.isOk]
    constructor
    · intro h
      cases h
    · intro ⟨h, _⟩
      exact absurd h hnd

/-! ## C8: host-shareability is reachability from a global -/

theorem reaches_prepend {m : Arena} {c t ty : Nat}
    (hc : c ∈ ((m.get? ty).getD .other).components) (h : Reaches m c t) :
    Reaches m ty t := by
  induction h with
  | refl => exact Reaches.step (Reaches.refl ty) hc
  | step _ hmem ih => exact Reaches.step ih hmem

theorem reaches_iff {m : Arena} {ty t : Nat} :
    Reaches m ty t ↔
      t = ty ∨ ∃ c ∈ ((m.get? ty).getD .other).components, Reaches m c t := by
  constructor
  · intro h
    induction h with
    | refl => exact Or.inl rfl
    | step _ hmem ih =>
      rcases ih with rfl | ⟨d, hd, hdc⟩
      · exact Or.inr ⟨_, hmem, Reaches.refl _⟩
      · exact Or.inr ⟨d, hd, Reaches.step hdc hmem⟩
  · rintro (rfl | ⟨c, hc, hct⟩)
    · exact Reaches.refl _
    · exact reaches_prepend hc hct

theorem mem_foldl_addTypes {m : Arena} (fuel : Nat)
    (hind : ∀ c, c < fuel → ∀ acc t,
      t ∈ addTypesRecursive m fuel acc c ↔ t ∈ acc ∨ Reaches m c t) :
    ∀ (cs : List Nat), (∀ c ∈ cs, c < fuel) → ∀ (acc : List Nat) (t : Nat),
      t ∈ cs.foldl (fun a c => addTypesRecursive m fuel a c) acc ↔
        t ∈ acc ∨ ∃ c ∈ cs, Reaches m c t := by
  intro cs
  induction cs with
  | nil => simp
  | cons c cs ihc =>
    intro hlt acc t
    rw [List.foldl_cons]
    rw [ihc (fun x hx => hlt x (List.mem_cons_of_mem c hx)) _ t]
    rw [hind c (hlt c (List.mem_cons_self c cs)) acc t]
    constructor
    · rintro ((h | h) | ⟨d, hd, hdt⟩)
      · exact Or.inl h
      · exact Or.inr ⟨c, List.mem_cons_self c cs, h⟩
      · exact Or.inr ⟨d, List.mem_cons_of_mem c hd, hdt⟩
    · rintro (h | ⟨d, hd, hdt⟩)
      · exact Or.inl (Or.inl h)
      · rcases List.mem_cons.mp hd with rfl | hd'
        · exact Or.inl (Or.inr hdt)
        · exact Or.inr ⟨d, hd', hdt⟩

theorem mem_addTypesRecursive {m : Arena} (hwf : m.wf) :
    ∀ (fuel ty : Nat), ty < fuel → ∀ (acc : List Nat) (t : Nat),
      t ∈ addTypesRecursive m fuel acc ty ↔ t ∈ acc ∨ Reaches m ty t := by
  intro fuel
  induction fuel with
  | zero => intro ty h; omega
  | succ fuel ih =>
    intro ty hty acc t
    have hchild : ∀ c ∈ ((m.get? ty).getD .other).components, c < fuel := by
      intro c hc
      by_cases hv : ty < m.length
      · have := hwf ty hv c hc
        omega
      · rw [List.get?_eq_none.mpr (by omega)] at hc
        simp [TypeInner.components] at hc
    simp only [addTypesRecursive]
    rw [mem_foldl_addTypes fuel (fun c hc => ih c hc) _ hchild]
    have hacc : t ∈ (if ty ∈ acc then acc else acc ++ [ty]) ↔ t ∈ acc ∨ t = ty := by
      by_cases hin : ty ∈ acc
      · rw [if_pos hin]
        constructor
        · exact Or.inl
        · rintro (h | rfl)
          · exact h
          · exact hin
      · rw [if_neg hin]
        simp
    rw [hacc, @reaches_iff m ty t]
    tauto

theorem mem_globalVariableTypes {mod : Module} (hwf : mod.types.wf)
    (hg : ∀ g ∈ mod.global_variables, g.ty < mod.types.length) (t : Nat) :
    t ∈ globalVariableTypes mod ↔
      ∃ g ∈ mod.global_variables, Reaches mod.types g.ty t := by
  suffices h : ∀ (gs : List GlobalVariable), (∀ g ∈ gs, g.ty < mod.types.length) →
      ∀ acc : List Nat,
      (t ∈ gs.foldl
        (fun a g => addTypesRecursive mod.types (mod.types.length + 1) a g.ty) acc ↔
        t ∈ acc ∨ ∃ g ∈ gs, Reaches mod.types g.ty t) by
    have := h mod.global_variables hg []
    simpa [globalVariableTypes] using this
  intro gs
  induction gs with
  | nil => simp
  | cons g gs ihg =>
    intro hlt acc
    rw [List.foldl_cons]
    rw [ihg (fun x hx => hlt x (List.mem_cons_of_mem g hx)) _]
    rw [mem_addTypesRecursive hwf (mod.types.length + 1) g.ty
      (by have := hlt g (List.mem_cons_self g gs); omega) acc t]
    constructor
    · rintro ((h | h) | ⟨d, hd, hdt⟩)
      · exact Or.inl h
      · exact Or.inr ⟨g, List.mem_cons_self g gs, h⟩
      · exact Or.inr ⟨d, List.mem_cons_of_mem g hd, hdt⟩
    · rintro (h | ⟨d, hd, hdt⟩)
      · exact Or.inl (Or.inl h)
      · rcases List.mem_cons.mp hd with rfl | hd'
        · exact Or.inl (Or.inr hdt)
        · exact Or.inr ⟨d, hd', hdt⟩

/-- C8 — confirmed.  For every module with naga's handle ordering invariant
and in-range global types, a type is marked `is_host_sharable` exactly when
it is reachable (through pointer, array, struct-member and binding-array
edges) from some global variable's type.  Concretely (conjuncts 2 and 3): in
`c8Module` the struct used by the uniform global is marked `true`, and the
struct reachable from no global — e.g. one used only as a vertex-entry-point
argument — is marked `false`. -/
theorem struct_host_shareable_iff :
    (∀ (mod : Module), mod.types.wf →
        (∀ g ∈ mod.global_variables, g.ty < mod.types.length) →
        ∀ t : Nat, isHostShareable mod t = true ↔
          ∃ g ∈ mod.global_variables, Reaches mod.types g.ty t)
    ∧ isHostShareable c8Module 1 = true
    ∧ isHostShareable c8Module 2 = false := by
  refine ⟨?_, by decide, by decide⟩
  intro mod hwf hg t
  rw [show isHostShareable mod t = decide (t ∈ globalVariableTypes mod) from rfl,
    decide_eq_true_iff]
  exact mem_globalVariableTypes hwf hg t

/-! ## C6: termination and output size of import resolution -/

theorem trimLeft_length_le (l : Chars) : (trimLeft l).length ≤ l.length := by
  induction l with
  | nil => simp [trimLeft]
  | cons c cs ih =>
    unfold trimLeft
    by_cases h : isWs c = true
    · rw [if_pos h]
      simp only [List.length_cons]
      omega
    · rw [if_neg h]

theorem trimRight_length_le (l : Chars) : (trimRight l).length ≤ l.length := by
  unfold trimRight
  rw [List.length_reverse]
  calc (trimLeft l.reverse).length ≤ l.reverse.length := trimLeft_length_le _
    _ = l.length := List.length_reverse _

theorem trim_length_le (l : Chars) : (trim l).length ≤ l.length := by
  unfold trim
  exact Nat.le_trans (trimRight_length_le _) (trimLeft_length_le _)

theorem splitOnceCh_snd_length {c : Char} {l : Chars} {p : Chars × Chars}
    (h : splitOnceCh c l = some p) : p.2.length ≤ l.length := by
  induction l generalizing p with
  | nil => cases h
  | cons x xs ih =>
    unfold splitOnceCh at h
    by_cases hx : x = c
    · rw [if_pos hx] at h
      cases h
      simp only [List.length_cons]
      omega
    · rw [if_neg hx] at h
      cases hq : splitOnceCh c xs with
      | none => rw [hq] at h; cases h
      | some q =>
        rw [hq] at h
        cases h
        have := ih hq
        simp only [List.length_cons]
        omega

theorem tokensAux_mem_length {t : Chars} :
    ∀ (l cur : Chars), t ∈ tokensAux cur l → t.length ≤ cur.length + l.length := by
  intro l
  induction l with
  | nil =>
    intro cur h
    unfold tokensAux at h
    by_cases hc : cur = []
    · rw [if_pos hc] at h
      cases h
    · rw [if_neg hc] at h
      simp only [List.mem_singleton] at h
      subst h
      simp
  | cons c cs ih =>
    intro cur h
    unfold tokensAux at h
    by_cases hw : isWs c = true
    · rw [if_pos hw] at h
      by_cases hc : cur = []
      · rw [if_pos hc] at h
        have := ih [] h
        simp only [List.length_nil, List.length_cons] at this ⊢
        omega
      · rw [if_neg hc] at h
        cases h with
        | head =>
          simp only [List.length_reverse, List.length_cons]
          omega
        | tail _ h =>
          have := ih [] h
          simp only [List.length_nil, List.length_cons] at this ⊢
          omega
    · rw [if_neg hw] at h
      have := ih (c :: cur) h
      simp only [List.length_cons] at this ⊢
      omega

theorem tokens_mem_length {t l : Chars} (h : t ∈ tokens l) : t.length ≤ l.length := by
  have := tokensAux_mem_length l [] h
  simpa using this

theorem stripPrefixIf_length_le (c : Char) (l : Chars) :
    (stripPrefixIf c l).length ≤ l.length := by
  unfold stripPrefixIf stripPrefixCh
  match l with
  | [] => simp
  | x :: xs =>
    by_cases hx : x = c
    · simp [hx]
    · simp [hx]

theorem stripPrefixCh_length {c : Char} {l q : Chars}
    (h : stripPrefixCh c l = some q) : q.length < l.length := by
  match l with
  | [] => cases h
  | x :: xs =>
    simp only [stripPrefixCh] at h
    by_cases hx : x = c
    · rw [if_pos hx] at h
      cases h
      simp
    · rw [if_neg hx] at h
      cases h

theorem stripSuffixIf_length_le (c : Char) (l : Chars) :
    (stripSuffixIf c l).length ≤ l.length := by
  cases hp : stripPrefixCh c l.reverse with
  | none =>
    unfold stripSuffixIf stripSuffixCh
    rw [hp]
    simp
  | some q =>
    unfold stripSuffixIf stripSuffixCh
    rw [hp]
    have := stripPrefixCh_length hp
    rw [List.length_reverse] at this
    simp only [Option.map_some', Option.getD_some, List.length_reverse]
    omega

theorem stripDelims_length_le (l : Chars) : (stripDelims l).length ≤ l.length := by
  unfold stripDelims
  calc (stripSuffixIf '>' (stripPrefixIf '<' (stripSuffixIf quoteCh (stripPrefixIf quoteCh l)))).length
      ≤ (stripPrefixIf '<' (stripSuffixIf quoteCh (stripPrefixIf quoteCh l))).length :=
        stripSuffixIf_length_le _ _
    _ ≤ (stripSuffixIf quoteCh (stripPrefixIf quoteCh l)).length := stripPrefixIf_length_le _ _
    _ ≤ (stripPrefixIf quoteCh l).length := stripSuffixIf_length_le _ _
    _ ≤ l.length := stripPrefixIf_length_le _ _

theorem beginMarker_length (lt name : Chars) :
    (beginMarker lt name).length = lt.length + name.length + 24 := by
  have h1 : (lit "// ").length = 3 := rfl
  have h2 : (lit " // BEGIN #import '").length = 19 := rfl
  have h3 : (lit "'").length = 1 := rfl
  simp only [beginMarker, List.length_append, List.length_cons, List.length_nil, h1, h2, h3]
  omega

theorem endMarker_length (name : Chars) : (endMarker name).length = name.length + 18 := by
  have h1 : (lit "// END #import '").length = 16 := rfl
  have h2 : (lit "'").length = 1 := rfl
  simp only [endMarker, List.length_append, List.length_cons, List.length_nil, h1, h2]
  omega

theorem errMarker_length (lt : Chars) : (errMarker lt).length = lt.length + 59 := by
  have h1 : (lit "// ").length = 3 := rfl
  have h2 : (lit " // ERROR: Preprocessor could not include file, skipped").length = 55 := rfl
  simp only [errMarker, List.length_append, List.length_cons, List.length_nil, h1, h2]
  omega

/-- One emitted line is at most `4K + 64` characters plus one expansion,
when every input line is at most `K` characters and every expansion of a
looked-up file is at most `E`. -/
theorem importEmit_length_le (look : Option (Chars → Option Chars))
    (expand : Chars → Chars) {line : Chars} {K E : Nat} (hK : line.length ≤ K)
    (hE : ∀ f name src, look = some f → f name = some src →
      (expand src).length ≤ E) :
    (importEmit look expand line).length ≤ 4 * K + 64 + E := by
  have hlt : (trim line).length ≤ K := Nat.le_trans (trim_length_le line) hK
  have hplain : (line ++ ['\n']).length ≤ 4 * K + 64 + E := by
    simp only [List.length_append, List.length_cons, List.length_nil]
    omega
  have herr : (errMarker (trim line)).length ≤ 4 * K + 64 + E := by
    rw [errMarker_length]
    omega
  simp only [importEmit]
  split
  · split
    · exact hplain
    next pre r hsp =>
      have hr : r.length ≤ K := Nat.le_trans (splitOnceCh_snd_length hsp) hlt
      split
      · exact hplain
      next op args htok =>
        split
        · split
          next f =>
            split
            next rawName hhd =>
              have hmem : rawName ∈ tokens r := by
                rw [htok]
                cases args with
                | nil => cases hhd
                | cons a t =>
                  simp only [List.head?_cons, Option.some.injEq] at hhd
                  subst hhd
                  exact List.mem_cons_of_mem op (List.mem_cons_self _ _)
              have hname : (stripDelims rawName).length ≤ K :=
                Nat.le_trans (stripDelims_length_le _)
                  (Nat.le_trans (tokens_mem_length hmem) hr)
              split
              next src hfn =>
                have hexp : (expand src).length ≤ E :=
                  hE f (stripDelims rawName) src rfl hfn
                simp only [List.length_append, beginMarker_length, endMarker_length]
                omega
              next hfn => exact herr
            next hhd => exact herr
          next => exact herr
        · exact hplain
  · exact hplain

theorem resolveLevel_length_le (look : Option (Chars → Option Chars))
    (expand : Chars → Chars) {K E : Nat}
    (hE : ∀ f name src, look = some f → f name = some src →
      (expand src).length ≤ E) :
    ∀ lines : List Chars, (∀ l ∈ lines, l.length ≤ K) →
      (resolveLevel look expand lines).length ≤ lines.length * (4 * K + 64 + E) := by
  intro lines
  induction lines with
  | nil => simp [resolveLevel]
  | cons line rest ih =>
    intro hK
    rw [resolveLevel, List.length_append]
    have h1 := importEmit_length_le look expand (hK line (List.mem_cons_self line rest)) hE
    have h2 := ih (fun l hl => hK l (List.mem_cons_of_mem line hl))
    have hmul : (rest.length + 1) * (4 * K + 64 + E) =
        rest.length * (4 * K + 64 + E) + (4 * K + 64 + E) := by ring
    simp only [List.length_cons]
    rw [hmul]
    omega

theorem resolveGo_length_le (look : Option (Chars → Option Chars)) (K L : Nat)
    (hlook : ∀ f, look = some f → ∀ name src, f name = some src →
      (rustLines src).length ≤ L ∧ ∀ l ∈ rustLines src, l.length ≤ K) :
    ∀ (r : Nat) (lines : List Chars), (∀ l ∈ lines, l.length ≤ K) →
      (resolveGo look (r + 1) lines).length ≤
        lines.length * (4 * K + 64 + sizeBoundLvl K L r) := by
  intro r
  induction r with
  | zero =>
    intro lines hK
    rw [resolveGo]
    exact resolveLevel_length_le look _
      (fun f name src _ _ => by rw [resolveGo]; simp) lines hK
  | succ r ih =>
    intro lines hK
    rw [resolveGo]
    refine resolveLevel_length_le look _ ?_ lines hK
    intro f name src hlk hfn
    have hb := hlook f hlk name src hfn
    calc (resolveGo look (r + 1) (rustLines src)).length
        ≤ (rustLines src).length * (4 * K + 64 + sizeBoundLvl K L r) :=
          ih (rustLines src) hb.2
      _ ≤ L * (4 * K + 64 + sizeBoundLvl K L r) :=
          Nat.mul_le_mul_right _ hb.1
      _ = sizeBoundLvl K L (r + 1) := rfl

/-- C6 — corrected.  Import resolution always terminates with bounded
output: a call whose depth exceeds the maximum returns the empty expansion
without recursing (conjunct 1); the output length is bounded by a function
of the recursion budget and the per-file size — `L` lines of at most `K`
characters per file give at most `lines × (4K + 64 + sizeBoundLvl K L
(maxRec - depth))` characters, a bound exponential in the recursion budget
(conjunct 2); and a cyclic import graph terminates, as on the one-line
self-import cycle (conjunct 3). -/
theorem import_resolution_bounded :
    (∀ (look : Option (Chars → Option Chars)) (maxRec depth : Nat) (text : Chars),
        depth > maxRec → preprocessResolveImportsRec look maxRec depth text = [])
    ∧ (∀ (look : Option (Chars → Option Chars)) (maxRec depth : Nat) (text : Chars)
        (K L : Nat), (∀ l ∈ rustLines text, l.length ≤ K) →
        (∀ f, look = some f → ∀ name src, f name = some src →
          (rustLines src).length ≤ L ∧ ∀ l ∈ rustLines src, l.length ≤ K) →
        (preprocessResolveImportsRec look maxRec depth text).length ≤
          (rustLines text).length * (4 * K + 64 + sizeBoundLvl K L (maxRec - depth)))
    ∧ preprocessResolveImportsRec (some c6CycLook) 1 0 (lit "#import a") =
        lit "// #import a // BEGIN #import 'a'\n// #import a // BEGIN #import 'a'\n// END #import 'a'\n// END #import 'a'\n" := by
  refine ⟨?_, ?_, by decide⟩
  · intro look maxRec depth text h
    unfold preprocessResolveImportsRec
    rw [if_pos h]
  · intro look maxRec depth text K L hK hlook
    unfold preprocessResolveImportsRec
    by_cases h : depth > maxRec
    · rw [if_pos h]
      exact Nat.zero_le _
    · rw [if_neg h]
      have heq : maxRec + 1 - depth = (maxRec - depth) + 1 := by omega
      rw [heq]
      exact resolveGo_length_le look K L hlook (maxRec - depth) (rustLines text) hK

theorem bombEmit (expand : Chars → Chars) :
    importEmit (some c6BombLook) expand (lit "#import a") =
      beginMarker (lit "#import a") (lit "a") ++ expand c6BombText ++
        endMarker (lit "a") := rfl

theorem bombLevelLen (r : Nat) :
    (resolveGo (some c6BombLook) (r + 1) [lit "#import a", lit "#import a"]).length =
      2 * (resolveGo (some c6BombLook) r [lit "#import a", lit "#import a"]).length +
        106 := by
  have hrl : rustLines c6BombText = [lit "#import a", lit "#import a"] := by decide
  have h9 : (lit "#import a").length = 9 := rfl
  have h1 : (lit "a").length = 1 := rfl
  rw [resolveGo, resolveLevel, resolveLevel, resolveLevel]
  simp only [bombEmit, hrl, List.length_append, beginMarker_length, endMarker_length,
    h9, h1, List.length_nil]
  omega

theorem bombLower (r : Nat) : 2 ^ (r + 1) ≤
    (resolveGo (some c6BombLook) (r + 1)
      [lit "#import a", lit "#import a"]).length := by
  induction r with
  | zero => decide
  | succ r ih =>
    rw [bombLevelLen (r + 1)]
    have h2 : 2 ^ (r + 1 + 1) = 2 * 2 ^ (r + 1) := by ring
    rw [h2]
    omega

theorem two_mul_le_two_pow (n : Nat) (h : 2 ≤ n) : 2 * n ≤ 2 ^ n := by
  induction n with
  | zero => omega
  | succ n ih =>
    by_cases h2 : 2 ≤ n
    · have hp := ih h2
      have h1 : 1 ≤ 2 ^ n := Nat.one_le_two_pow
      rw [pow_succ]
      omega
    · have : n = 1 := by omega
      subst this
      decide

/-- C6 — counterexample.  The claimed `C × max_depth × per-file-size` output
bound is false: the 19-character file that imports itself twice per
expansion produces output of length at least `2 ^ (max_depth + 1)`, which
outgrows `C × max_depth × 19` for every constant `C` (at
`max_depth = 2 ^ (19 C + 5)`). -/
theorem import_linear_bound_counterexample : importLinearBoundClaim = False := by
  apply eq_false
  rintro ⟨C, h⟩
  set m := 2 ^ (19 * C + 5) with hm
  have hS : ∀ name src, c6BombLook name = some src → src.length ≤ 19 := by
    intro name src hsrc
    unfold c6BombLook at hsrc
    by_cases hn : name = lit "a"
    · rw [if_pos hn] at hsrc
      cases hsrc
      decide
    · rw [if_neg hn] at hsrc
      cases hsrc
  have htext : c6BombText.length ≤ 19 := by decide
  have hb := h m c6BombLook c6BombText 19 htext hS
  have hunfold : preprocessResolveImportsRec (some c6BombLook) m 0 c6BombText =
      resolveGo (some c6BombLook) (m + 1) (rustLines c6BombText) := by
    unfold preprocessResolveImportsRec
    rw [if_neg (Nat.not_lt_zero m)]
    simp
  rw [hunfold,
    (by decide : rustLines c6BombText = [lit "#import a", lit "#import a"])] at hb
  have hlow := bombLower m
  have hcontr : 2 ^ (m + 1) ≤ C * m * 19 := le_trans hlow hb
  have hpow : 0 < 2 ^ (m + 1) := Nat.pos_pow_of_pos _ (by omega)
  rcases Nat.eq_zero_or_pos C with hC | hC
  · subst hC
    simp at hcontr
  · have hA1 : 1 ≤ 19 * C := by omega
    have hAm : 19 * C < m := by
      calc 19 * C < 2 ^ (19 * C) := Nat.lt_two_pow _
        _ ≤ 2 ^ (19 * C + 5) := Nat.pow_le_pow_right (by omega) (by omega)
        _ = m := hm.symm
    have h2A : 2 * (19 * C + 5) ≤ m := by
      have := two_mul_le_two_pow (19 * C + 5) (by omega)
      omega
    have hCm19 : C * m * 19 = (19 * C) * m := by ring
    have hmpos : 0 < m := by omega
    have hmm : (19 * C) * m < m * m := by
      exact mul_lt_mul_of_pos_right hAm hmpos
    have hmmpow : m * m = 2 ^ (2 * (19 * C + 5)) := by
      rw [hm, ← pow_add]
      congr 1
      ring
    have hfinal : m * m ≤ 2 ^ (m + 1) := by
      rw [hmmpow]
      exact Nat.pow_le_pow_right (by omega) (by omega)
    rw [hCm19] at hcontr
    omega

end WgslBindgen
